import Mathlib

/-!
# Study planner: a shallow embedding of `src/main.cpp`

The program keeps a global `std::vector<Task> tasks` and a counter `nextId`,
persists the tasks to `tasks.db` (one `|`-separated record per line) and
suggests a daily plan by a greedy pass over the incomplete tasks sorted by
(priority, due date, duration).

Conventions of the embedding.

* A C++ `int` is an `Int` in the range `[INT_MIN, INT_MAX]`; every arithmetic
  result that the program stores in an `int` goes through `wrapInt`
  (two's-complement wrap-around, what the usual build does on overflow).
* A `std::string` is a `String`; `operator<` on `std::string` is the
  lexicographic order on characters, which is `String`'s `<`.
* The pieces of the C++ standard library the program calls (`operator<<` on
  `int`, `std::stoi`, `std::getline`, `std::sort`, `std::remove_if`) are
  modelled from their documented behaviour.
* Global state is passed explicitly as a `Store`.
-/

namespace StudyPlanner

/-! ## Machine integers -/

/-- Smallest value of a 32-bit C++ `int`. -/
def INT_MIN : Int := -2147483648

/-- Largest value of a 32-bit C++ `int`. -/
def INT_MAX : Int := 2147483647

deriving instance DecidableEq for Except

/-- Membership in the range of a C++ `int`. -/
def isInt (x : Int) : Prop := INT_MIN ≤ x ∧ x ≤ INT_MAX

instance (x : Int) : Decidable (isInt x) := by
  unfold isInt; exact inferInstance

/-- Two's-complement wrap-around of a mathematical integer into the `int` range. -/
def wrapInt (x : Int) : Int := (x + 2147483648) % 4294967296 - 2147483648

/-! ## Data model (`struct Task`, lines 14-44) -/

/-- The `Task` record of the program, field for field. -/
structure Task where
  id : Int
  title : String
  subject : String
  duration_minutes : Int
  priority : Int
  due_date : String
  completed : Bool
deriving DecidableEq, Repr

/-- The three `int` fields of a task are in the range of `int`. -/
def Task.intsInRange (t : Task) : Prop :=
  isInt t.id ∧ isInt t.duration_minutes ∧ isInt t.priority

instance (t : Task) : Decidable t.intsInRange := by
  unfold Task.intsInRange; exact inferInstance

/-- Some text field of the task (title, subject or due date) holds the character. -/
def Task.textHas (t : Task) (c : Char) : Prop :=
  c ∈ t.title.data ∨ c ∈ t.subject.data ∨ c ∈ t.due_date.data

instance (t : Task) (c : Char) : Decidable (t.textHas c) := by
  unfold Task.textHas; exact inferInstance

/-! ## Daily plan (`generateDailyPlan`, lines 161-195) -/

/-- The pool of line 165-166: the incomplete tasks, in store order. -/
def pool (tasks : List Task) : List Task :=
  tasks.filter (fun t => !t.completed)

/-- The comparison `operator<` on `std::string`: lexicographic, character by character,
a proper initial segment coming first. -/
def strLess (a b : String) : Bool := decide (a.data < b.data)

/-- The comparator passed to `std::sort` at lines 171-175. -/
def planLess (a b : Task) : Bool :=
  if a.priority ≠ b.priority then decide (a.priority < b.priority)
  else if a.due_date ≠ b.due_date then strLess a.due_date b.due_date
  else decide (a.duration_minutes < b.duration_minutes)

/-- Postcondition of `std::sort(first, last, comp)` for a strict weak ordering
`comp`: the output is a rearrangement of the input in which no later element
is `comp`-less than an earlier one. The arrangement of tied elements is left
open, as `std::sort` is not stable. -/
def IsStdSort {α : Type} (less : α → α → Bool) (input output : List α) : Prop :=
  output.Perm input ∧ output.Pairwise (fun a b => less b a = false)

instance {α : Type} [DecidableEq α] (less : α → α → Bool) (input output : List α) :
    Decidable (IsStdSort less input output) := by
  unfold IsStdSort; exact inferInstance

/-- A comparator is a strict weak ordering when it is asymmetric and its complement is
transitive; this is what `std::sort` asks of its comparator. -/
structure StrictWeak {α : Type} (less : α → α → Bool) : Prop where
  asymm : ∀ a b, less a b = true → less b a = false
  negTrans : ∀ a b c, less b a = false → less c b = false → less c a = false

/-- The key chain of the display comparator as one value in the lexicographic order:
completed (incomplete first), then priority, then due date. -/
def displayKey (t : Task) : Bool ×ₗ (Int ×ₗ List Char) :=
  toLex (t.completed, toLex (t.priority, t.due_date.data))

/-- The key chain of the plan comparator as one value in the lexicographic order:
priority, then due date, then duration. -/
def planKey (t : Task) : Int ×ₗ (List Char ×ₗ Int) :=
  toLex (t.priority, toLex (t.due_date.data, t.duration_minutes))

/-- The three keys of the plan comparator: priority, due date, duration. -/
def planTriple (t : Task) : Int × String × Int :=
  (t.priority, t.due_date, t.duration_minutes)

/-- The relation "`a` is not after `b`" under the key chain (priority, then due date
compared lexically, then duration), written out. -/
def planKeyLe (a b : Task) : Prop :=
  a.priority < b.priority ∨
    (a.priority = b.priority ∧
      (strLess a.due_date b.due_date = true ∨
        (a.due_date = b.due_date ∧ a.duration_minutes ≤ b.duration_minutes)))

/-- Insertion of one element in front of the first element it is not greater than. -/
def insertSorted {α : Type} (less : α → α → Bool) (x : α) : List α → List α
  | [] => [x]
  | y :: ys => if less y x then y :: insertSorted less x ys else x :: y :: ys

/-- An executable sort meeting `IsStdSort` (insertion sort), used to run
`generateDailyPlan` and `listTasks` on concrete stores. It keeps tied elements in their
input order; `std::sort` is free to arrange them otherwise (and does, on long inputs), so
on inputs with tied keys this is one of the arrangements the program may show, not
necessarily the one a given build shows. What is proved about plans is proved for every
arrangement `IsStdSort` admits. -/
def stdSort {α : Type} (less : α → α → Bool) : List α → List α
  | [] => []
  | x :: xs => insertSorted less x (stdSort less xs)

/-- The greedy loop of lines 177-184: walk the sorted pool once, take every
task whose duration is at most the time left, and subtract it. Returns the
plan and the final `timeLeft`. -/
def greedySelect : List Task → Int → List Task × Int
  | [], timeLeft => ([], timeLeft)
  | t :: rest, timeLeft =>
    if t.duration_minutes ≤ timeLeft then
      let r := greedySelect rest (wrapInt (timeLeft - t.duration_minutes))
      (t :: r.1, r.2)
    else greedySelect rest timeLeft

/-- The `total` accumulated at lines 190-191 (an `int`, starting from 0). -/
def planTotal (plan : List Task) : Int :=
  plan.foldl (fun total p => wrapInt (total + p.duration_minutes)) 0

/-- What `generateDailyPlan` reports. -/
inductive PlanOutcome where
  /-- line 168: "No incomplete tasks." (returns before any plan is built) -/
  | noIncompleteTasks
  /-- line 188: the plan is empty, "No single task fits ..."; `timeLeft` is
  the value of the local variable, which is not printed on this branch -/
  | noTaskFits (timeLeft : Int)
  /-- lines 190-192: the plan is printed with "Total scheduled" and "Free time left" -/
  | scheduled (plan : List Task) (total : Int) (timeLeft : Int)
deriving DecidableEq, Repr

/-- Lines 177-193: the part of `generateDailyPlan` that runs on the sorted pool. -/
def planAfterSort (sorted : List Task) (available : Int) : PlanOutcome :=
  let r := greedySelect sorted available
  if r.1.isEmpty then PlanOutcome.noTaskFits r.2
  else PlanOutcome.scheduled r.1 (planTotal r.1) r.2

/-- The whole of `generateDailyPlan`, given the budget read at line 163, with `stdSort`
standing for `std::sort`: when candidates tie on all three keys this is one of the
outcomes `GeneratesPlan` admits. -/
def generateDailyPlan (tasks : List Task) (available : Int) : PlanOutcome :=
  if (pool tasks).isEmpty then PlanOutcome.noIncompleteTasks
  else planAfterSort (stdSort planLess (pool tasks)) available

/-- The tasks of the plan an outcome carries (none when no plan is printed). -/
def PlanOutcome.plan : PlanOutcome → List Task
  | .noIncompleteTasks => []
  | .noTaskFits _ => []
  | .scheduled plan _ _ => plan

/-- The value of `timeLeft` when the greedy loop has run (none when the function
returned at line 168, before the variable exists). -/
def PlanOutcome.timeLeft? : PlanOutcome → Option Int
  | .noIncompleteTasks => none
  | .noTaskFits timeLeft => some timeLeft
  | .scheduled _ _ timeLeft => some timeLeft

/-- The "Total scheduled" figure, when it is printed. -/
def PlanOutcome.total? : PlanOutcome → Option Int
  | .noIncompleteTasks => none
  | .noTaskFits _ => none
  | .scheduled _ total _ => some total

/-- The outcomes `generateDailyPlan` can produce when `std::sort` is any sort
meeting its postcondition: it pins down everything but the order of tied
candidates. -/
def GeneratesPlan (tasks : List Task) (available : Int) (out : PlanOutcome) : Prop :=
  if (pool tasks).isEmpty then out = PlanOutcome.noIncompleteTasks
  else ∃ sorted, IsStdSort planLess (pool tasks) sorted ∧ out = planAfterSort sorted available

/-- Mathematical sum of the durations of a list of tasks. -/
def durationSum (l : List Task) : Int :=
  (l.map (fun t => t.duration_minutes)).sum

/-- Sum of the negative durations of a list of tasks (0 when there is none). -/
def negativeDurationSum (l : List Task) : Int :=
  (l.map (fun t => min t.duration_minutes 0)).sum

/-! ### Concrete inputs used in the examples -/

/-- A task of duration -1, for the overflow example. -/
def overflowTask : Task :=
  { id := 1, title := "t", subject := "s", duration_minutes := -1, priority := 1,
    due_date := "", completed := false }

/-- A task of duration 0. -/
def zeroTask : Task :=
  { id := 1, title := "t", subject := "s", duration_minutes := 0, priority := 1,
    due_date := "", completed := false }

/-- Task A of the scenario (the first record of `importSampleData`). -/
def taskA : Task :=
  { id := 1, title := "Read OS: Paging", subject := "Operating Systems",
    duration_minutes := 60, priority := 1, due_date := "2025-11-20", completed := false }

/-- Task B of the scenario (the second record of `importSampleData`). -/
def taskB : Task :=
  { id := 2, title := "Practice DB SQL queries", subject := "Database Systems",
    duration_minutes := 90, priority := 2, due_date := "2025-11-25", completed := false }

/-- Task C of the scenario (the third record of `importSampleData`). -/
def taskC : Task :=
  { id := 3, title := "Revise Networking notes", subject := "Networking",
    duration_minutes := 45, priority := 1, due_date := "2025-11-19", completed := false }

/-- Two tasks for which the greedy pass schedules fewer minutes than fit: the first
(priority 1, 60 minutes) is taken and shuts out the second (priority 2, 100 minutes). -/
def minutesGapTasks : List Task :=
  [ { id := 1, title := "x", subject := "s", duration_minutes := 60, priority := 1,
      due_date := "", completed := false },
    { id := 2, title := "y", subject := "s", duration_minutes := 100, priority := 2,
      due_date := "", completed := false } ]

/-- Three tasks for which the greedy pass schedules fewer tasks than fit: the first
(priority 1, 100 minutes) is taken and shuts out the two of 50 minutes. -/
def countGapTasks : List Task :=
  [ { id := 1, title := "x", subject := "s", duration_minutes := 100, priority := 1,
      due_date := "", completed := false },
    { id := 2, title := "y", subject := "s", duration_minutes := 50, priority := 2,
      due_date := "2025-11-19", completed := false },
    { id := 3, title := "z", subject := "s", duration_minutes := 50, priority := 2,
      due_date := "2025-11-20", completed := false } ]

/-! ## Display order (`listTasks`, lines 85-101) -/

/-- The comparator passed to `std::sort` at lines 92-96; `bool < bool`
compares the operands as the integers 0 and 1. -/
def displayLess (a b : Task) : Bool :=
  if a.completed ≠ b.completed then decide (a.completed.toNat < b.completed.toNat)
  else if a.priority ≠ b.priority then decide (a.priority < b.priority)
  else strLess a.due_date b.due_date

/-- The tasks `listTasks` prints, in the order it prints them, with `stdSort` standing
for `std::sort`: tasks that tie on all three keys may be printed in another order. -/
def listTasks (tasks : List Task) (showCompleted : Bool) : List Task :=
  if tasks.isEmpty then []
  else (stdSort displayLess tasks).filter (fun t => showCompleted || !t.completed)

/-! ## Text of an `int` (`operator<<`) and `std::stoi` -/

/-- The character of a decimal digit. -/
def digitChar (d : Nat) : Char := Char.ofNat (48 + d)

/-- Decimal digits of a natural number, most significant first, in front of `acc`. -/
def showNatAux : Nat → Nat → List Char → List Char
  | 0, _, acc => acc
  | fuel + 1, n, acc =>
    if n < 10 then digitChar n :: acc
    else showNatAux fuel (n / 10) (digitChar (n % 10) :: acc)

/-- Decimal text of a natural number. -/
def showNat (n : Nat) : List Char := showNatAux (n + 1) n []

/-- What `ostream << int` writes: the decimal digits, after a `-` for a negative value. -/
def showInt : Int → List Char
  | Int.ofNat n => showNat n
  | Int.negSucc n => '-' :: showNat (n + 1)

/-- A character `operator<<` writes for an `int`: a decimal digit or the minus sign. -/
def isNumberChar (c : Char) : Prop := c.isDigit = true ∨ c = '-'

/-- The characters `std::isspace` accepts in the "C" locale. -/
def isSpace (c : Char) : Bool :=
  c == ' ' || c == '\t' || c == '\n' || c == '\x0b' || c == '\x0c' || c == '\r'

/-- Value of a run of decimal digits. -/
def parseDigits (ds : List Char) : Nat :=
  ds.foldl (fun acc c => 10 * acc + (c.toNat - 48)) 0

/-- The two exceptions `std::stoi` throws. -/
inductive StoiError where
  | invalid_argument
  | out_of_range
deriving DecidableEq, Repr

/-- Sign and rest of a number text: an optional `+` or `-` is consumed. -/
def splitSign : List Char → Bool × List Char
  | '-' :: r => (true, r)
  | '+' :: r => (false, r)
  | s => (false, s)

/-- The function `std::stoi(str)`: skip leading white space, read an optional sign
and the longest run of decimal digits, ignore what follows; no digit throws
`invalid_argument`, a value outside `int` throws `out_of_range`. -/
def stoi (str : List Char) : Except StoiError Int :=
  let signed := splitSign (str.dropWhile isSpace)
  let ds := signed.2.takeWhile Char.isDigit
  if ds.isEmpty then Except.error StoiError.invalid_argument
  else
    let v : Int := if signed.1 then - (parseDigits ds : Int) else (parseDigits ds : Int)
    if INT_MIN ≤ v ∧ v ≤ INT_MAX then Except.ok v else Except.error StoiError.out_of_range

/-! ## Input streams and `std::getline` -/

/-- An input stream: the characters not yet read and the two state bits the
program depends on. -/
structure IStream where
  rest : List Char
  eof : Bool
  fail : Bool
deriving DecidableEq, Repr

/-- A fresh stream over a text (`std::istringstream in(line)`, an opened file). -/
def IStream.open (text : List Char) : IStream := { rest := text, eof := false, fail := false }

/-- The test `stream.good()`. -/
def IStream.good (s : IStream) : Bool := !s.eof && !s.fail

/-- Characters up to the first `delim`, and what follows that `delim` when there is one. -/
def readUntil (delim : Char) : List Char → List Char × Option (List Char)
  | [] => ([], none)
  | c :: cs =>
    if c = delim then ([], some cs)
    else (c :: (readUntil delim cs).1, (readUntil delim cs).2)

/-- The call `std::getline(stream, str, delim)`: on a stream that is not good the
string is left as it was and `failbit` is set; otherwise the string is replaced by
the characters up to the delimiter (which is consumed) or up to the end of input
(which sets `eofbit`, and `failbit` too when nothing at all was extracted). -/
def getline (s : IStream) (str : List Char) (delim : Char) : List Char × IStream :=
  if s.good then
    match readUntil delim s.rest with
    | (field, some r) => (field, { rest := r, eof := false, fail := false })
    | (field, none) => (field, { rest := [], eof := true, fail := field.isEmpty })
  else (str, { s with fail := true })

/-- A bound on the number of iterations the loop of `loadTasks` makes on a stream. -/
def IStream.linesBound (s : IStream) : Nat := if s.good then s.rest.length + 2 else 1

/-! ## Persistence (`serialize`, `deserialize`, `saveTasks`, `loadTasks`) -/

/-- The method `Task::serialize` (lines 23-29). -/
def Task.serialize (t : Task) : String :=
  String.mk (showInt t.id ++ '|' :: (t.title.data ++ '|' :: (t.subject.data ++ '|' ::
    (showInt t.duration_minutes ++ '|' :: (showInt t.priority ++ '|' ::
      (t.due_date.data ++ '|' :: showInt (if t.completed then 1 else 0)))))))

/-- The function `Task::deserialize` (lines 31-43). A `std::stoi` exception
propagates. The variable `field` is reused, so a `getline` that fails on an
exhausted stream leaves the previous text in it; the strings of the fresh `Task`
start empty. -/
def Task.deserialize (line : String) : Except StoiError Task :=
  let in0 := IStream.open line.data
  let r1 := getline in0 [] '|'
  match stoi r1.1 with
  | Except.error e => Except.error e
  | Except.ok id =>
    let r2 := getline r1.2 [] '|'
    let r3 := getline r2.2 [] '|'
    let r4 := getline r3.2 r1.1 '|'
    match stoi r4.1 with
    | Except.error e => Except.error e
    | Except.ok duration =>
      let r5 := getline r4.2 r4.1 '|'
      match stoi r5.1 with
      | Except.error e => Except.error e
      | Except.ok priority =>
        let r6 := getline r5.2 [] '|'
        let r7 := getline r6.2 r5.1 '|'
        Except.ok
          { id := id, title := String.mk r2.1, subject := String.mk r3.1,
            duration_minutes := duration, priority := priority,
            due_date := String.mk r6.1, completed := decide (r7.1 = ['1']) }

/-- The global state of the program, with the file `tasks.db` it reads and writes. -/
structure Store where
  /-- the vector `tasks` -/
  tasks : List Task
  /-- the counter `nextId` -/
  nextId : Int
  /-- contents of `tasks.db`; `none` when it cannot be opened for reading -/
  db : Option (List Char)
  /-- whether `tasks.db` can be opened for writing -/
  writable : Bool
  /-- how many times `saveTasks` has been called (instrumentation, not program state) -/
  saveCalls : Nat
deriving DecidableEq, Repr

/-- The text `saveTasks` writes: every task's record followed by a line feed. -/
def fileText : List Task → List Char
  | [] => []
  | t :: rest => t.serialize.data ++ '\n' :: fileText rest

/-- The function `saveTasks` (lines 50-58). -/
def saveTasks (s : Store) : Store :=
  if s.writable then { s with db := some (fileText s.tasks), saveCalls := s.saveCalls + 1 }
  else { s with saveCalls := s.saveCalls + 1 }

/-- The loop of lines 66-71 on the stream `input`, with the local variables `line`,
`tasks` and `maxId`; `fuel` bounds the number of iterations. -/
def loadLoop : Nat → IStream → List Char → List Task → Int → Except StoiError (List Task × Int)
  | 0, _, _, tasks, maxId => Except.ok (tasks, maxId)
  | fuel + 1, input, line, tasks, maxId =>
    let r := getline input line '\n'
    if r.2.fail then Except.ok (tasks, maxId)
    else if r.1.isEmpty then loadLoop fuel r.2 r.1 tasks maxId
    else
      match Task.deserialize (String.mk r.1) with
      | Except.error e => Except.error e
      | Except.ok t => loadLoop fuel r.2 r.1 (tasks ++ [t]) (if t.id > maxId then t.id else maxId)

/-- The largest id so far, as the loop of `loadTasks` maintains it in `maxId`. -/
def maxIdOf (tasks : List Task) (maxId : Int) : Int :=
  tasks.foldl (fun m t => if t.id > m then t.id else m) maxId

/-- The function `loadTasks` (lines 60-74). Every iteration but the last two consumes a
line feed, so `text.length + 2` iterations always suffice. -/
def loadTasks (s : Store) : Except StoiError Store :=
  match s.db with
  | none => Except.ok { s with tasks := [] }
  | some text =>
    match loadLoop (text.length + 2) (IStream.open text) [] [] 0 with
    | Except.error e => Except.error e
    | Except.ok r => Except.ok { s with tasks := r.1, nextId := wrapInt (r.2 + 1) }

/-! ## Store operations (lines 103-158, 197-205) -/

/-- What an operation prints about its outcome. -/
inductive Message where
  | taskNotFound
  | added (id : Int)
  | taskUpdated
  | taskDeleted
  | markedComplete
  | markedIncomplete
  | sampleImported
  | listed (shown : List Task)
  | planned (outcome : PlanOutcome)
  | saved
deriving DecidableEq, Repr

/-- The function `findTaskById` (lines 103-106): the position of the first task
with the id, standing for the pointer the program returns. -/
def findTaskById : List Task → Int → Option Nat
  | [], _ => none
  | t :: rest, id => if t.id = id then some 0 else (findTaskById rest id).map (fun i => i + 1)

/-- Assignment through the pointer `findTaskById` returned: the task at position
`i` becomes `f` of itself. -/
def updateAt (f : Task → Task) : List Task → Nat → List Task
  | [], _ => []
  | t :: rest, 0 => f t :: rest
  | t :: rest, i + 1 => t :: updateAt f rest i

/-- The function `addTask` (lines 108-122) on the values read from the terminal. -/
def addTask (s : Store) (title subject : String) (duration priority : Int) (due : String) :
    Store × Message :=
  let t : Task :=
    { id := s.nextId, title := title, subject := subject, duration_minutes := duration,
      priority := priority, due_date := due, completed := false }
  (saveTasks { s with tasks := s.tasks ++ [t], nextId := wrapInt (s.nextId + 1) },
    Message.added t.id)

/-- The five answers `editTask` reads, each a line of text (empty keeps the old value). -/
structure EditInput where
  title : String
  subject : String
  duration : String
  priority : String
  due : String
deriving DecidableEq, Repr

/-- The assignments of lines 131-135 to the task found. -/
def applyEdit (e : EditInput) (t : Task) : Except StoiError Task :=
  let t1 := if e.title.data.isEmpty then t else { t with title := e.title }
  let t2 := if e.subject.data.isEmpty then t1 else { t1 with subject := e.subject }
  match (if e.duration.data.isEmpty then Except.ok t2.duration_minutes else stoi e.duration.data) with
  | Except.error err => Except.error err
  | Except.ok d =>
    let t3 := { t2 with duration_minutes := d }
    match (if e.priority.data.isEmpty then Except.ok t3.priority else stoi e.priority.data) with
    | Except.error err => Except.error err
    | Except.ok p =>
      let t4 := { t3 with priority := p }
      Except.ok (if e.due.data.isEmpty then t4 else { t4 with due_date := e.due })

/-- The function `editTask` (lines 124-138); a `std::stoi` exception ends the program.
The position `findTaskById` returns always lies inside the list, so the second
not-found branch is never taken. -/
def editTask (s : Store) (id : Int) (e : EditInput) : Except StoiError (Store × Message) :=
  match findTaskById s.tasks id with
  | none => Except.ok (s, Message.taskNotFound)
  | some i =>
    match s.tasks.get? i with
    | none => Except.ok (s, Message.taskNotFound)
    | some t =>
      match applyEdit e t with
      | Except.error err => Except.error err
      | Except.ok t1 =>
        Except.ok (saveTasks { s with tasks := updateAt (fun _ => t1) s.tasks i },
          Message.taskUpdated)

/-- The function `removeTask` (lines 140-148): `std::remove_if` keeps, in order, the
tasks whose id differs, and returns `tasks.end()` exactly when it kept them all. -/
def removeTask (s : Store) (id : Int) : Store × Message :=
  let kept := s.tasks.filter (fun t => !decide (t.id = id))
  if kept.length = s.tasks.length then (s, Message.taskNotFound)
  else (saveTasks { s with tasks := kept }, Message.taskDeleted)

/-- The function `toggleComplete` (lines 150-158); the message reads the flag through
the pointer after the assignment. -/
def toggleComplete (s : Store) (id : Int) : Store × Message :=
  match findTaskById s.tasks id with
  | none => (s, Message.taskNotFound)
  | some i =>
    let tasks := updateAt (fun t => { t with completed := !t.completed }) s.tasks i
    (saveTasks { s with tasks := tasks },
      if (tasks.get? i).any (fun t => t.completed) then Message.markedComplete
      else Message.markedIncomplete)

/-- The function `importSampleData` (lines 197-205). -/
def importSampleData (s : Store) : Store × Message :=
  let n0 := s.nextId
  let n1 := wrapInt (n0 + 1)
  let n2 := wrapInt (n1 + 1)
  let n3 := wrapInt (n2 + 1)
  let n4 := wrapInt (n3 + 1)
  (saveTasks
    { s with
      tasks :=
        [ { id := n0, title := "Read OS: Paging", subject := "Operating Systems",
            duration_minutes := 60, priority := 1, due_date := "2025-11-20", completed := false },
          { id := n1, title := "Practice DB SQL queries", subject := "Database Systems",
            duration_minutes := 90, priority := 2, due_date := "2025-11-25", completed := false },
          { id := n2, title := "Revise Networking notes", subject := "Networking",
            duration_minutes := 45, priority := 1, due_date := "2025-11-19", completed := false },
          { id := n3, title := "Implement C++ assignment", subject := "Programming",
            duration_minutes := 120, priority := 3, due_date := "2025-11-30", completed := false } ],
      nextId := n4 },
    Message.sampleImported)

/-- A menu choice of `main` together with the values the chosen function reads. -/
inductive Op where
  | list (showCompleted : Bool)
  | add (title subject : String) (duration priority : Int) (due : String)
  | edit (id : Int) (e : EditInput)
  | remove (id : Int)
  | toggle (id : Int)
  | plan (available : Int)
  | importSample
  | save
deriving DecidableEq, Repr

/-- A store whose counter has reached `INT_MAX`. -/
def fullCounterStore : Store :=
  { tasks := [], nextId := 2147483647, db := none, writable := true, saveCalls := 0 }

/-- A store that has not loaded yet, next to a file whose only record has the id
`INT_MAX - 1`. -/
def bigIdFileStore : Store :=
  { tasks := [], nextId := 1, db := some "2147483646|t|s|1|1||0\n".data, writable := true,
    saveCalls := 0 }

/-- A small store for the examples. -/
def sampleStore : Store :=
  { tasks := [taskA, taskB, taskC], nextId := 4, db := none, writable := true, saveCalls := 0 }

/-- The store predicate of the data model: the ids of the tasks in the store are
pairwise distinct and every one of them is below the counter `nextId`. -/
def StoreInv (s : Store) : Prop :=
  (s.tasks.map (fun t => t.id)).Nodup ∧ ∀ i ∈ s.tasks.map (fun t => t.id), i < s.nextId

instance (s : Store) : Decidable (StoreInv s) := by
  unfold StoreInv; exact inferInstance

/-- The text a field has after an edit: the answer typed, or the old text when the
answer is empty. -/
def editedText (input old : String) : String :=
  if input.data.isEmpty then old else input

/-- The number a field has after an edit: what `std::stoi` reads from the answer typed,
or the old number when the answer is empty. -/
def editedNumber (input : String) (old : Int) : Except StoiError Int :=
  if input.data.isEmpty then Except.ok old else stoi input.data

/-- A store that has not loaded yet, next to a file whose only record has the id
`INT_MAX`. -/
def maxIdFileStore : Store :=
  { tasks := [], nextId := 1, db := some "2147483647|t|s|1|1||0\n".data, writable := true,
    saveCalls := 0 }

/-- A store whose only task has the id `INT_MIN` and whose counter has reached
`INT_MAX`. -/
def minIdStore : Store :=
  { tasks := [{ id := -2147483648, title := "t", subject := "s", duration_minutes := 30,
                priority := 1, due_date := "", completed := false }],
    nextId := 2147483647, db := none, writable := true, saveCalls := 0 }

/-- Answers to `editTask` whose duration is not a number. -/
def badNumberEdit : EditInput :=
  { title := "", subject := "", duration := "abc", priority := "", due := "2026-01-01" }

/-- Answers to `editTask` that change the duration and the due date only. -/
def sampleEdit : EditInput :=
  { title := "", subject := "", duration := "75", priority := "", due := "2026-01-01" }

/-- What holds of every task the program can hold: the three `int` fields are `int`
values, and the three text fields are lines, that is, hold no line feed (they come from
`std::getline` on the terminal, from a line of the file, or from a literal). -/
def Task.isStored (t : Task) : Prop := t.intsInRange ∧ ¬ t.textHas '\n'

instance (t : Task) : Decidable t.isStored := by
  unfold Task.isStored; exact inferInstance

/-- What holds of every state the program can be in: the counter is an `int` and every
task is as `Task.isStored` says. -/
def Store.wellFormed (s : Store) : Prop := isInt s.nextId ∧ ∀ t ∈ s.tasks, t.isStored

instance (s : Store) : Decidable s.wellFormed := by
  unfold Store.wellFormed; exact inferInstance

/-- What holds of the values a menu choice reads from the terminal: a text read by
`std::getline` holds no line feed, a number read by `std::cin >>` is an `int`. -/
def Op.inputsOk : Op → Prop
  | Op.add title subject duration priority due =>
    '\n' ∉ title.data ∧ '\n' ∉ subject.data ∧ '\n' ∉ due.data ∧ isInt duration ∧ isInt priority
  | Op.edit _ e => '\n' ∉ e.title.data ∧ '\n' ∉ e.subject.data ∧ '\n' ∉ e.due.data
  | _ => True

/-- How many ids a menu choice takes from the counter `nextId`. -/
def Op.idDemand : Op → Nat
  | Op.add _ _ _ _ _ => 1
  | Op.importSample => 4
  | _ => 0

/-- How many ids a run of menu choices takes from the counter. -/
def idDemand (ops : List Op) : Nat := (ops.map Op.idDemand).sum

/-- One iteration of the menu loop of `main` (lines 228-237), loading excluded. -/
def step (s : Store) : Op → Except StoiError (Store × Message)
  | Op.list showCompleted => Except.ok (s, Message.listed (listTasks s.tasks showCompleted))
  | Op.add title subject duration priority due =>
    Except.ok (addTask s title subject duration priority due)
  | Op.edit id e => editTask s id e
  | Op.remove id => Except.ok (removeTask s id)
  | Op.toggle id => Except.ok (toggleComplete s id)
  | Op.plan available => Except.ok (s, Message.planned (generateDailyPlan s.tasks available))
  | Op.importSample => Except.ok (importSampleData s)
  | Op.save => Except.ok (saveTasks s, Message.saved)

/-- A run of menu choices: the final store and the messages printed, in order. The
run ends early when a `std::stoi` exception ends the program. -/
def run : Store → List Op → Store × List Message
  | s, [] => (s, [])
  | s, op :: ops =>
    match step s op with
    | Except.error _ => (s, [])
    | Except.ok r => ((run r.1 ops).1, r.2 :: (run r.1 ops).2)

/-- The ids reported by the `add` operations among the messages of a run. -/
def addedIds : List Message → List Int
  | [] => []
  | Message.added id :: rest => id :: addedIds rest
  | _ :: rest => addedIds rest

/-! ## Machine integers -/

theorem wrapInt_of_isInt {x : Int} (h : isInt x) : wrapInt x = x := by
  unfold isInt INT_MIN INT_MAX at h
  unfold wrapInt
  omega

theorem isInt_wrapInt (x : Int) : isInt (wrapInt x) := by
  unfold isInt INT_MIN INT_MAX wrapInt
  omega

/-! ## Sorting -/

theorem mem_insertSorted {α : Type} (less : α → α → Bool) (x z : α) (l : List α) :
    z ∈ insertSorted less x l ↔ z = x ∨ z ∈ l := by
  induction l with
  | nil => simp [insertSorted]
  | cons y ys ih =>
    unfold insertSorted
    split
    · simp only [List.mem_cons, ih]
      tauto
    · simp only [List.mem_cons]

theorem insertSorted_perm {α : Type} (less : α → α → Bool) (x : α) (l : List α) :
    (insertSorted less x l).Perm (x :: l) := by
  induction l with
  | nil => simp [insertSorted]
  | cons y ys ih =>
    unfold insertSorted
    split
    · exact (List.Perm.cons y ih).trans (List.Perm.swap x y ys)
    · exact List.Perm.refl _

theorem stdSort_perm {α : Type} (less : α → α → Bool) (l : List α) :
    (stdSort less l).Perm l := by
  induction l with
  | nil => exact List.Perm.refl _
  | cons x xs ih =>
    unfold stdSort
    exact (insertSorted_perm less x _).trans (List.Perm.cons x ih)

theorem insertSorted_pairwise {α : Type} {less : α → α → Bool} (hw : StrictWeak less)
    (x : α) (l : List α) (hl : l.Pairwise (fun a b => less b a = false)) :
    (insertSorted less x l).Pairwise (fun a b => less b a = false) := by
  induction l with
  | nil => simp [insertSorted]
  | cons y ys ih =>
    rw [List.pairwise_cons] at hl
    unfold insertSorted
    split
    · rename_i hyx
      rw [List.pairwise_cons]
      refine ⟨?_, ih hl.2⟩
      intro z hz
      rcases (mem_insertSorted less x z ys).1 hz with rfl | hz
      · exact hw.asymm _ _ hyx
      · exact hl.1 z hz
    · rename_i hyx
      have hyx' : less y x = false := by simpa using hyx
      rw [List.pairwise_cons]
      refine ⟨?_, List.pairwise_cons.2 hl⟩
      intro z hz
      rcases List.mem_cons.1 hz with rfl | hz
      · exact hyx'
      · exact hw.negTrans x y z hyx' (hl.1 z hz)

theorem stdSort_isStdSort {α : Type} {less : α → α → Bool} (hw : StrictWeak less)
    (l : List α) : IsStdSort less l (stdSort less l) := by
  refine ⟨stdSort_perm less l, ?_⟩
  induction l with
  | nil => simp [stdSort]
  | cons x xs ih =>
    unfold stdSort
    exact insertSorted_pairwise hw x _ ih

/-! ## The plan comparator -/

theorem string_ne_iff_data (a b : String) : a ≠ b ↔ a.data ≠ b.data := by
  constructor
  · intro h hd; exact h (String.ext hd)
  · intro h hd; exact h (by rw [hd])

theorem planLess_iff (a b : Task) : planLess a b = true ↔ planKey a < planKey b := by
  unfold planLess planKey strLess
  rw [Prod.Lex.lt_iff]
  simp only [ofLex_toLex, Prod.Lex.lt_iff]
  by_cases hp : a.priority = b.priority
  · by_cases hd : a.due_date = b.due_date
    · simp [hp, hd]
    · have hd' : a.due_date.data ≠ b.due_date.data := (string_ne_iff_data _ _).1 hd
      simp [hp, hd, hd']
  · simp [hp]

theorem planLess_eq_false_iff (a b : Task) : planLess a b = false ↔ planKey b ≤ planKey a := by
  rw [← not_lt, ← planLess_iff]; simp

theorem planLess_strictWeak : StrictWeak planLess where
  asymm a b h := by
    rw [planLess_eq_false_iff]
    exact le_of_lt ((planLess_iff a b).1 h)
  negTrans a b c h1 h2 := by
    rw [planLess_eq_false_iff] at *
    exact le_trans h1 h2

/-! ## The greedy pass -/

theorem generateDailyPlan_generates (tasks : List Task) (available : Int) :
    GeneratesPlan tasks available (generateDailyPlan tasks available) := by
  unfold GeneratesPlan generateDailyPlan
  split
  · rfl
  · exact ⟨_, stdSort_isStdSort planLess_strictWeak _, rfl⟩

theorem negativeDurationSum_nonpos (l : List Task) : negativeDurationSum l ≤ 0 := by
  induction l with
  | nil => simp [negativeDurationSum]
  | cons t rest ih =>
    simp only [negativeDurationSum, List.map_cons, List.sum_cons] at ih ⊢
    have := min_le_right t.duration_minutes 0
    omega

theorem negativeDurationSum_perm {l₁ l₂ : List Task} (h : l₁.Perm l₂) :
    negativeDurationSum l₁ = negativeDurationSum l₂ :=
  (h.map _).sum_eq

/-- While the counter cannot overflow, the greedy loop keeps `timeLeft` equal to the
budget minus what was selected, and never lets it go negative. -/
theorem greedySelect_timeLeft (sorted : List Task) :
    ∀ timeLeft : Int, 0 ≤ timeLeft → timeLeft - negativeDurationSum sorted ≤ INT_MAX →
      (greedySelect sorted timeLeft).2 = timeLeft - durationSum (greedySelect sorted timeLeft).1 ∧
        0 ≤ (greedySelect sorted timeLeft).2 := by
  induction sorted with
  | nil => intro tl h0 _; simp [greedySelect, durationSum, h0]
  | cons t rest ih =>
    intro tl h0 hb
    have hneg := negativeDurationSum_nonpos rest
    have hmin := min_le_right t.duration_minutes 0
    have hmin' := min_le_left t.duration_minutes 0
    simp only [negativeDurationSum, List.map_cons, List.sum_cons] at hb hneg
    unfold greedySelect
    split
    · rename_i hfit
      have hw : wrapInt (tl - t.duration_minutes) = tl - t.duration_minutes := by
        apply wrapInt_of_isInt
        simp only [isInt, INT_MIN, INT_MAX] at *
        constructor <;> omega
      rw [hw]
      have := ih (tl - t.duration_minutes) (by omega)
        (by simp only [negativeDurationSum]; omega)
      simp only [durationSum, List.map_cons, List.sum_cons] at this ⊢
      constructor
      · omega
      · exact this.2
    · exact ih tl h0 (by simp only [negativeDurationSum]; omega)

/-- While the counter cannot overflow, the `total` the program adds up is the
mathematical sum of the selected durations. -/
theorem greedySelect_total (sorted : List Task) :
    ∀ timeLeft acc : Int, 0 ≤ timeLeft → timeLeft - negativeDurationSum sorted ≤ INT_MAX →
      0 ≤ acc + timeLeft → acc + timeLeft ≤ INT_MAX →
      (greedySelect sorted timeLeft).1.foldl
          (fun total p => wrapInt (total + p.duration_minutes)) acc
        = acc + durationSum (greedySelect sorted timeLeft).1 := by
  induction sorted with
  | nil => intro tl acc _ _ _ _; simp [greedySelect, durationSum]
  | cons t rest ih =>
    intro tl acc h0 hb ha0 ha1
    have hneg := negativeDurationSum_nonpos rest
    have hmin := min_le_right t.duration_minutes 0
    have hmin' := min_le_left t.duration_minutes 0
    simp only [negativeDurationSum, List.map_cons, List.sum_cons] at hb hneg
    unfold greedySelect
    split
    · rename_i hfit
      have hw : wrapInt (tl - t.duration_minutes) = tl - t.duration_minutes := by
        apply wrapInt_of_isInt
        simp only [isInt, INT_MIN, INT_MAX] at *
        constructor <;> omega
      have hw2 : wrapInt (acc + t.duration_minutes) = acc + t.duration_minutes := by
        apply wrapInt_of_isInt
        simp only [isInt, INT_MIN, INT_MAX] at *
        constructor <;> omega
      rw [hw]
      simp only [List.foldl_cons, hw2]
      rw [ih (tl - t.duration_minutes) (acc + t.duration_minutes) (by omega)
        (by simp only [negativeDurationSum]; omega) (by omega) (by omega)]
      simp only [durationSum, List.map_cons, List.sum_cons]
      omega
    · exact ih tl acc h0 (by simp only [negativeDurationSum]; omega) ha0 ha1

theorem greedySelect_sublist (sorted : List Task) :
    ∀ timeLeft : Int, (greedySelect sorted timeLeft).1.Sublist sorted := by
  induction sorted with
  | nil => intro tl; simp [greedySelect]
  | cons t rest ih =>
    intro tl
    unfold greedySelect
    split
    · exact (ih _).cons₂ t
    · exact (ih _).cons t

theorem planAfterSort_plan (sorted : List Task) (available : Int) :
    (planAfterSort sorted available).plan = (greedySelect sorted available).1 := by
  unfold planAfterSort
  simp only
  split
  · rename_i he
    have he' : (greedySelect sorted available).1 = [] := by simpa using he
    simp [PlanOutcome.plan, he']
  · rfl

theorem planAfterSort_timeLeft (sorted : List Task) (available : Int) :
    (planAfterSort sorted available).timeLeft? = some (greedySelect sorted available).2 := by
  unfold planAfterSort
  simp only
  split <;> rfl

theorem planKeyLe_iff (a b : Task) : planKeyLe a b ↔ planKey a ≤ planKey b := by
  unfold planKeyLe planKey strLess
  rw [Prod.Lex.le_iff]
  simp only [ofLex_toLex, Prod.Lex.le_iff, decide_eq_true_eq]
  constructor
  · rintro (h | ⟨h1, h2 | ⟨h2, h3⟩⟩)
    · exact Or.inl h
    · exact Or.inr ⟨h1, Or.inl h2⟩
    · exact Or.inr ⟨h1, Or.inr ⟨by rw [h2], h3⟩⟩
  · rintro (h | ⟨h1, h2 | ⟨h2, h3⟩⟩)
    · exact Or.inl h
    · exact Or.inr ⟨h1, Or.inl h2⟩
    · exact Or.inr ⟨h1, Or.inr ⟨String.ext h2, h3⟩⟩

theorem pool_sublist (tasks : List Task) : (pool tasks).Sublist tasks :=
  List.filter_sublist tasks

theorem mem_pool (tasks : List Task) (t : Task) :
    t ∈ pool tasks ↔ t ∈ tasks ∧ t.completed = false := by
  simp [pool]

/-- Claim C2. Whatever the budget and however `std::sort` arranges ties, the plan is a
subsequence of a candidate order of the incomplete tasks: every planned task is an
incomplete task of the store, no task is planned more often than the store holds it, and
each planned task is not after its successor under the key chain priority, due date
(lexical), duration. -/
theorem generateDailyPlan_subsequence (tasks : List Task) (available : Int)
    (out : PlanOutcome) (hout : GeneratesPlan tasks available out) :
    (∃ sorted, IsStdSort planLess (pool tasks) sorted ∧ out.plan.Sublist sorted) ∧
      (∀ t ∈ out.plan, t ∈ tasks ∧ t.completed = false) ∧
      (∀ t, out.plan.count t ≤ tasks.count t) ∧
      out.plan.Chain' planKeyLe := by
  unfold GeneratesPlan at hout
  split at hout
  · rename_i he
    have he' : pool tasks = [] := by simpa using he
    subst hout
    refine ⟨⟨[], ?_, ?_⟩, ?_, ?_, ?_⟩
    · rw [he']; exact ⟨List.Perm.refl _, List.Pairwise.nil⟩
    · simp [PlanOutcome.plan]
    · simp [PlanOutcome.plan]
    · simp [PlanOutcome.plan]
    · simp [PlanOutcome.plan]
  · obtain ⟨sorted, hs, rfl⟩ := hout
    rw [planAfterSort_plan]
    have hsub := greedySelect_sublist sorted available
    refine ⟨⟨sorted, hs, hsub⟩, ?_, ?_, ?_⟩
    · intro t ht
      exact (mem_pool tasks t).1 (hs.1.subset (hsub.subset ht))
    · intro t
      calc (greedySelect sorted available).1.count t
          ≤ sorted.count t := hsub.count_le t
        _ = (pool tasks).count t := hs.1.count_eq t
        _ ≤ tasks.count t := (pool_sublist tasks).count_le t
    · apply List.Pairwise.chain'
      refine (hs.2.sublist hsub).imp ?_
      intro a b hab
      rw [planKeyLe_iff]
      exact (planLess_eq_false_iff b a).1 hab

/-! ### Uniqueness of the candidate order when no two candidates tie -/

theorem sorted_unique_of_strict {l l' : List Task} (hp : l.Perm l')
    (hl : l.Pairwise (fun a b => planLess b a = false))
    (hl' : l'.Pairwise (fun a b => planLess a b = true)) : l = l' := by
  have h1 : (l'.map planKey).Sorted (· < ·) := by
    rw [List.Sorted, List.pairwise_map]
    exact hl'.imp (fun {a b} h => (planLess_iff a b).1 h)
  have h2 : (l.map planKey).Sorted (· ≤ ·) := by
    rw [List.Sorted, List.pairwise_map]
    exact hl.imp (fun {a b} h => (planLess_eq_false_iff b a).1 h)
  have h3 : (l.map planKey).Nodup := (hp.map planKey).nodup_iff.2 h1.nodup
  have h4 : (l.map planKey).Sorted (· < ·) := h2.lt_of_le h3
  have h5 : l.Pairwise (fun a b => planKey a < planKey b) := by
    rw [List.Sorted, List.pairwise_map] at h4; exact h4
  have h6 : l'.Pairwise (fun a b => planKey a < planKey b) := by
    rw [List.Sorted, List.pairwise_map] at h1; exact h1
  haveI : IsAntisymm Task (fun a b => planKey a < planKey b) :=
    ⟨fun a b h h' => absurd h (lt_asymm h')⟩
  exact List.eq_of_perm_of_sorted hp h5 h6

/-- Claim C2 at the three sample tasks with the budget 200. -/
theorem generateDailyPlan_subsequence_witness :
    (∃ sorted, IsStdSort planLess (pool [taskA, taskB, taskC]) sorted ∧
        (generateDailyPlan [taskA, taskB, taskC] 200).plan.Sublist sorted) ∧
      (∀ t ∈ (generateDailyPlan [taskA, taskB, taskC] 200).plan,
        t ∈ [taskA, taskB, taskC] ∧ t.completed = false) ∧
      (∀ t, (generateDailyPlan [taskA, taskB, taskC] 200).plan.count t
        ≤ [taskA, taskB, taskC].count t) ∧
      (generateDailyPlan [taskA, taskB, taskC] 200).plan.Chain' planKeyLe :=
  generateDailyPlan_subsequence [taskA, taskB, taskC] 200 _ (generateDailyPlan_generates _ _)

/-! ### The budget (claim C1) -/

/-- Claim C1 fails as stated: with the budget `INT_MAX` and one incomplete task of
duration -1 the task is selected, `timeLeft -= -1` leaves the range of `int`, and the
time left reported is `INT_MIN`: negative, and not the budget minus the selected sum. -/
theorem generateDailyPlan_budget_counterexample :
    (0 : Int) ≤ 2147483647 ∧
      GeneratesPlan [overflowTask] 2147483647
        (PlanOutcome.scheduled [overflowTask] (-1) (-2147483648)) ∧
      generateDailyPlan [overflowTask] 2147483647
        = PlanOutcome.scheduled [overflowTask] (-1) (-2147483648) ∧
      ¬ ((-2147483648 : Int) = 2147483647 - durationSum [overflowTask]) ∧
      ¬ ((0 : Int) ≤ -2147483648) := by
  refine ⟨by decide, ?_, by decide, by decide, by decide⟩
  unfold GeneratesPlan
  rw [if_neg (by decide)]
  exact ⟨[overflowTask], by decide, by decide⟩

/-- Overflow or not, what the greedy loop selects sums to at most the time it started
with (to at most 0 when that time is negative): a selection that makes `timeLeft` wrap
around has a negative duration and leaves a negative `timeLeft`. -/
theorem greedySelect_sum_le (sorted : List Task) :
    ∀ timeLeft : Int, isInt timeLeft → (∀ t ∈ sorted, isInt t.duration_minutes) →
      durationSum (greedySelect sorted timeLeft).1 ≤ max timeLeft 0 := by
  induction sorted with
  | nil => intro tl _ _; simp [greedySelect, durationSum]
  | cons t rest ih =>
    intro tl htl hd
    have ht := hd t (List.mem_cons_self _ _)
    have hrest : ∀ u ∈ rest, isInt u.duration_minutes :=
      fun u hu => hd u (List.mem_cons_of_mem _ hu)
    unfold greedySelect
    split
    · rename_i hfit
      have h := ih (wrapInt (tl - t.duration_minutes)) (isInt_wrapInt _) hrest
      simp only [durationSum, List.map_cons, List.sum_cons] at h ⊢
      have hmax : max (wrapInt (tl - t.duration_minutes)) 0 + t.duration_minutes ≤ max tl 0 := by
        simp only [isInt, INT_MIN, INT_MAX, wrapInt] at *
        omega
      omega
    · exact ih tl htl hrest

/-- Claim C1, amended. Let the budget `available >= 0` and the durations be `int` values.
The durations of the plan sum to at most `available`, overflow or not. If moreover
`available` minus the sum of the negative durations of the incomplete tasks is at most
`INT_MAX` (always so when no duration is negative), the reported time left is `available`
minus that sum and is not negative, and the printed total is that sum. -/
theorem generateDailyPlan_within_budget (tasks : List Task) (available : Int)
    (out : PlanOutcome) (h0 : 0 ≤ available) (hint : isInt available)
    (hdur : ∀ t ∈ tasks, isInt t.duration_minutes)
    (hout : GeneratesPlan tasks available out) :
    durationSum out.plan ≤ available ∧
      (available - negativeDurationSum (pool tasks) ≤ INT_MAX →
        (∀ timeLeft, out.timeLeft? = some timeLeft →
          timeLeft = available - durationSum out.plan ∧ 0 ≤ timeLeft) ∧
        (∀ total, out.total? = some total → total = durationSum out.plan)) := by
  unfold GeneratesPlan at hout
  split at hout
  · subst hout
    simp [PlanOutcome.plan, PlanOutcome.timeLeft?, PlanOutcome.total?, durationSum, h0]
  · obtain ⟨sorted, hs, rfl⟩ := hout
    have hsum := greedySelect_sum_le sorted available hint
      (fun t ht => hdur t ((mem_pool tasks t).1 (hs.1.subset ht)).1)
    rw [max_eq_left h0] at hsum
    refine ⟨by rw [planAfterSort_plan]; exact hsum, ?_⟩
    intro hb
    have hb' : available - negativeDurationSum sorted ≤ INT_MAX := by
      rw [negativeDurationSum_perm hs.1]; exact hb
    have h1 := greedySelect_timeLeft sorted available h0 hb'
    have h2 := greedySelect_total sorted available 0 h0 hb' (by omega)
      (by have := negativeDurationSum_nonpos sorted; omega)
    unfold planAfterSort
    simp only
    split
    · rename_i he
      have he' : (greedySelect sorted available).1 = [] := by simpa using he
      rw [he'] at h1
      simp only [PlanOutcome.plan, PlanOutcome.timeLeft?, PlanOutcome.total?, durationSum,
        List.map_nil, List.sum_nil] at h1 ⊢
      refine ⟨?_, ?_⟩
      · intro tl htl
        cases htl
        exact h1
      · intro total ht
        cases ht
    · simp only [PlanOutcome.plan, PlanOutcome.timeLeft?, PlanOutcome.total?]
      refine ⟨?_, ?_⟩
      · intro tl htl
        cases htl
        exact h1
      · intro total ht
        cases ht
        simpa [planTotal] using h2

/-- Claim C1 (amended) at a store with a task of negative duration and the budget 100. -/
theorem generateDailyPlan_within_budget_witness :
    durationSum (generateDailyPlan [taskA, taskB, overflowTask] 100).plan ≤ 100 ∧
      (∀ timeLeft, (generateDailyPlan [taskA, taskB, overflowTask] 100).timeLeft?
          = some timeLeft →
        timeLeft = 100 - durationSum (generateDailyPlan [taskA, taskB, overflowTask] 100).plan ∧
          0 ≤ timeLeft) ∧
      (∀ total, (generateDailyPlan [taskA, taskB, overflowTask] 100).total? = some total →
        total = durationSum (generateDailyPlan [taskA, taskB, overflowTask] 100).plan) :=
  ⟨(generateDailyPlan_within_budget [taskA, taskB, overflowTask] 100 _ (by decide) (by decide)
      (by decide) (generateDailyPlan_generates _ _)).1,
    (generateDailyPlan_within_budget [taskA, taskB, overflowTask] 100 _ (by decide) (by decide)
      (by decide) (generateDailyPlan_generates _ _)).2 (by decide)⟩

theorem pool_perm {l₁ l₂ : List Task} (h : l₁.Perm l₂) : (pool l₁).Perm (pool l₂) :=
  h.filter _

/-! ### The scenario of three tasks (claim C3) -/

/-- Claim C3. Let the store hold exactly three incomplete tasks, in any order: `a` with
priority 1, duration 60, due "2025-11-20"; `b` with priority 2, duration 90, due
"2025-11-25"; `c` with priority 1, duration 45, due "2025-11-19". Then every sort meeting
the postcondition of `std::sort` orders the candidates `[c, a, b]`, and with the budget
100 the plan is `[c]`, the total 45 and the time left 55. -/
theorem scenario_plan (a b c : Task) (tasks : List Task)
    (ha : a.priority = 1 ∧ a.duration_minutes = 60 ∧ a.due_date = "2025-11-20" ∧
      a.completed = false)
    (hb : b.priority = 2 ∧ b.duration_minutes = 90 ∧ b.due_date = "2025-11-25" ∧
      b.completed = false)
    (hc : c.priority = 1 ∧ c.duration_minutes = 45 ∧ c.due_date = "2025-11-19" ∧
      c.completed = false)
    (hperm : tasks.Perm [a, b, c]) :
    (∀ sorted, IsStdSort planLess (pool tasks) sorted → sorted = [c, a, b]) ∧
      (∀ out, GeneratesPlan tasks 100 out → out = PlanOutcome.scheduled [c] 45 55) ∧
      generateDailyPlan tasks 100 = PlanOutcome.scheduled [c] 45 55 := by
  obtain ⟨ha1, ha2, ha3, ha4⟩ := ha
  obtain ⟨hb1, hb2, hb3, hb4⟩ := hb
  obtain ⟨hc1, hc2, hc3, hc4⟩ := hc
  have hpool : (pool tasks).Perm [a, b, c] := by
    have := pool_perm hperm
    simpa [pool, ha4, hb4, hc4] using this
  have hne : ¬ (pool tasks).isEmpty = true := by
    intro he
    have he' : pool tasks = [] := by simpa using he
    rw [he'] at hpool
    simpa using hpool.length_eq
  have hca : planLess c a = true := by
    simp [planLess, strLess, ha1, hc1, ha3, hc3]; decide
  have hcb : planLess c b = true := by
    simp [planLess, hb1, hc1]
  have hab : planLess a b = true := by
    simp [planLess, ha1, hb1]
  have hsorted : ∀ sorted, IsStdSort planLess (pool tasks) sorted → sorted = [c, a, b] := by
    intro sorted hs
    apply sorted_unique_of_strict _ hs.2
    · simp [hca, hcb, hab]
    · refine (hs.1.trans hpool).trans ?_
      exact (List.Perm.cons a (List.Perm.swap c b [])).trans (List.Perm.swap c a [b])
  have hplan : planAfterSort [c, a, b] 100 = PlanOutcome.scheduled [c] 45 55 := by
    simp [planAfterSort, greedySelect, planTotal, ha2, hb2, hc2, wrapInt]
  refine ⟨hsorted, ?_, ?_⟩
  · intro out hout
    unfold GeneratesPlan at hout
    rw [if_neg hne] at hout
    obtain ⟨sorted, hs, rfl⟩ := hout
    rw [hsorted sorted hs, hplan]
  · unfold generateDailyPlan
    rw [if_neg hne, hsorted _ (stdSort_isStdSort planLess_strictWeak _), hplan]

/-- Claim C3 at the first three records of `importSampleData`, stored in the order B, C, A. -/
theorem scenario_plan_witness :
    (∀ sorted, IsStdSort planLess (pool [taskB, taskC, taskA]) sorted →
        sorted = [taskC, taskA, taskB]) ∧
      (∀ out, GeneratesPlan [taskB, taskC, taskA] 100 out →
        out = PlanOutcome.scheduled [taskC] 45 55) ∧
      generateDailyPlan [taskB, taskC, taskA] 100 = PlanOutcome.scheduled [taskC] 45 55 :=
  scenario_plan taskA taskB taskC [taskB, taskC, taskA] (by decide) (by decide) (by decide)
    (by decide)

/-! ### The empty budget (claim C10) -/

/-- With no time at all and no negative duration, the greedy loop takes exactly the
tasks of duration 0 and leaves `timeLeft` at 0. -/
theorem greedySelect_zero (sorted : List Task)
    (hnn : ∀ t ∈ sorted, 0 ≤ t.duration_minutes) :
    greedySelect sorted 0
      = (sorted.filter (fun t => decide (t.duration_minutes = 0)), 0) := by
  induction sorted with
  | nil => rfl
  | cons t rest ih =>
    have ht := hnn t (List.mem_cons_self _ _)
    have ih' := ih (fun u hu => hnn u (List.mem_cons_of_mem _ hu))
    unfold greedySelect
    split
    · rename_i hfit
      have h0 : t.duration_minutes = 0 := by omega
      have hw : wrapInt (0 - t.duration_minutes) = 0 := by rw [h0]; decide
      rw [hw, ih']
      simp [List.filter_cons, h0]
    · rename_i hfit
      have h0 : ¬ t.duration_minutes = 0 := by omega
      rw [ih']
      simp [List.filter_cons, h0]

/-- Claim C10 fails as stated: with the budget 0 an incomplete task of duration 0 is
selected (`0 <= 0`), so the plan is not empty. -/
theorem zero_budget_counterexample :
    generateDailyPlan [zeroTask] 0 = PlanOutcome.scheduled [zeroTask] 0 0 ∧
      GeneratesPlan [zeroTask] 0 (PlanOutcome.scheduled [zeroTask] 0 0) ∧
      (PlanOutcome.scheduled [zeroTask] 0 0).plan ≠ [] := by
  refine ⟨by decide, ?_, by decide⟩
  unfold GeneratesPlan
  rw [if_neg (by decide)]
  exact ⟨[zeroTask], by decide, by decide⟩

/-- Claim C10, amended. When no incomplete task has a negative duration, a budget of 0
leaves the time left at 0 and selects exactly the incomplete tasks of duration 0; so the
plan is empty exactly when no incomplete task has duration 0. -/
theorem zero_budget_plan (tasks : List Task) (out : PlanOutcome)
    (hnn : ∀ t ∈ tasks, t.completed = false → 0 ≤ t.duration_minutes)
    (hout : GeneratesPlan tasks 0 out) :
    (∀ timeLeft, out.timeLeft? = some timeLeft → timeLeft = 0) ∧
      out.plan.Perm ((pool tasks).filter (fun t => decide (t.duration_minutes = 0))) ∧
      (out.plan = [] ↔ ∀ t ∈ tasks, t.completed = false → t.duration_minutes ≠ 0) := by
  have hempty : ∀ l : List Task, l.Perm ((pool tasks).filter
      (fun t => decide (t.duration_minutes = 0))) →
      (l = [] ↔ ∀ t ∈ tasks, t.completed = false → t.duration_minutes ≠ 0) := by
    intro l hl
    constructor
    · intro h t ht hc h0
      have : t ∈ l := hl.mem_iff.2 (by simp [mem_pool, ht, hc, h0])
      rw [h] at this
      simp at this
    · intro h
      apply List.eq_nil_iff_forall_not_mem.2
      intro t ht
      have := hl.mem_iff.1 ht
      simp only [List.mem_filter, mem_pool, decide_eq_true_eq] at this
      exact h t this.1.1 this.1.2 this.2
  unfold GeneratesPlan at hout
  split at hout
  · rename_i he
    have he' : pool tasks = [] := by simpa using he
    subst hout
    have hp : PlanOutcome.noIncompleteTasks.plan.Perm ((pool tasks).filter
        (fun t => decide (t.duration_minutes = 0))) := by
      rw [he']; exact List.Perm.refl _
    exact ⟨by simp [PlanOutcome.timeLeft?], hp, hempty _ hp⟩
  · obtain ⟨sorted, hs, rfl⟩ := hout
    have hsel := greedySelect_zero sorted (fun t ht =>
      hnn t ((mem_pool tasks t).1 (hs.1.subset ht)).1 ((mem_pool tasks t).1 (hs.1.subset ht)).2)
    have hp : (planAfterSort sorted 0).plan.Perm ((pool tasks).filter
        (fun t => decide (t.duration_minutes = 0))) := by
      rw [planAfterSort_plan, hsel]
      exact hs.1.filter _
    refine ⟨?_, hp, hempty _ hp⟩
    intro tl htl
    rw [planAfterSort_timeLeft, hsel] at htl
    cases htl
    rfl

/-- Claim C10 (amended) at a store with one task of duration 60 and one of duration 0. -/
theorem zero_budget_plan_witness :
    (∀ timeLeft, (generateDailyPlan [taskA, zeroTask] 0).timeLeft? = some timeLeft →
        timeLeft = 0) ∧
      (generateDailyPlan [taskA, zeroTask] 0).plan.Perm
        ((pool [taskA, zeroTask]).filter (fun t => decide (t.duration_minutes = 0))) ∧
      ((generateDailyPlan [taskA, zeroTask] 0).plan = [] ↔
        ∀ t ∈ [taskA, zeroTask], t.completed = false → t.duration_minutes ≠ 0) :=
  zero_budget_plan [taskA, zeroTask] _ (by decide) (generateDailyPlan_generates _ _)

/-! ## Decimal text of an `int` -/

theorem digitChar_spec (d : Nat) (h : d < 10) :
    (digitChar d).isDigit = true ∧ (digitChar d).toNat - 48 = d := by
  interval_cases d <;> decide

theorem showNatAux_append (fuel : Nat) :
    ∀ (n : Nat) (acc : List Char), showNatAux fuel n acc = showNatAux fuel n [] ++ acc := by
  induction fuel with
  | zero => intro n acc; simp [showNatAux]
  | succ fuel ih =>
    intro n acc
    unfold showNatAux
    split
    · simp
    · rw [ih (n / 10) (digitChar (n % 10) :: acc), ih (n / 10) [digitChar (n % 10)]]
      simp

theorem parseDigits_append (l : List Char) (c : Char) :
    parseDigits (l ++ [c]) = 10 * parseDigits l + (c.toNat - 48) := by
  simp [parseDigits, List.foldl_append]

theorem showNatAux_spec (fuel : Nat) :
    ∀ n : Nat, n < fuel →
      (∀ c ∈ showNatAux fuel n [], c.isDigit = true) ∧
        parseDigits (showNatAux fuel n []) = n ∧ showNatAux fuel n [] ≠ [] := by
  induction fuel with
  | zero => intro n h; omega
  | succ fuel ih =>
    intro n hn
    unfold showNatAux
    split
    · rename_i h10
      have hd := digitChar_spec n h10
      refine ⟨?_, ?_, by simp⟩
      · intro c hc
        rw [List.mem_singleton] at hc
        rw [hc]; exact hd.1
      · simp [parseDigits, hd.2]
    · rename_i h10
      have hd := digitChar_spec (n % 10) (Nat.mod_lt _ (by decide))
      have hlt : n / 10 < fuel := by omega
      obtain ⟨h1, h2, h3⟩ := ih (n / 10) hlt
      rw [showNatAux_append]
      refine ⟨?_, ?_, by simp⟩
      · intro c hc
        rcases List.mem_append.1 hc with hc | hc
        · exact h1 c hc
        · rw [List.mem_singleton] at hc
          rw [hc]; exact hd.1
      · rw [parseDigits_append, h2, hd.2]
        omega

theorem showNat_spec (n : Nat) :
    (∀ c ∈ showNat n, c.isDigit = true) ∧ parseDigits (showNat n) = n ∧ showNat n ≠ [] :=
  showNatAux_spec (n + 1) n (Nat.lt_succ_self n)

theorem isDigit_not_special {c : Char} (h : c.isDigit = true) :
    c ≠ '|' ∧ c ≠ '\n' ∧ c ≠ '-' ∧ c ≠ '+' ∧ isSpace c = false := by
  have h' : 48 ≤ c.val ∧ c.val ≤ 57 := by
    simpa [Char.isDigit] using h
  refine ⟨?_, ?_, ?_, ?_, ?_⟩
  · rintro rfl; revert h; decide
  · rintro rfl; revert h; decide
  · rintro rfl; revert h; decide
  · rintro rfl; revert h; decide
  · unfold isSpace
    simp only [Bool.or_eq_false_iff, beq_eq_false_iff_ne, ne_eq]
    refine ⟨⟨⟨⟨⟨?_, ?_⟩, ?_⟩, ?_⟩, ?_⟩, ?_⟩ <;> (rintro rfl; revert h; decide)

theorem showInt_chars (x : Int) : ∀ c ∈ showInt x, isNumberChar c := by
  intro c hc
  cases x with
  | ofNat n => exact Or.inl ((showNat_spec n).1 c hc)
  | negSucc n =>
    simp only [showInt, List.mem_cons] at hc
    rcases hc with rfl | hc
    · exact Or.inr rfl
    · exact Or.inl ((showNat_spec (n + 1)).1 c hc)

theorem isNumberChar_ne_delim {c : Char} (h : isNumberChar c) : c ≠ '|' ∧ c ≠ '\n' := by
  rcases h with h | rfl
  · exact ⟨(isDigit_not_special h).1, (isDigit_not_special h).2.1⟩
  · exact ⟨by decide, by decide⟩

theorem takeWhile_eq_self_of_all {α : Type} (p : α → Bool) (l : List α)
    (h : ∀ c ∈ l, p c = true) : l.takeWhile p = l := by
  induction l with
  | nil => rfl
  | cons a l ih =>
    rw [List.takeWhile_cons, h a (List.mem_cons_self _ _),
      ih (fun c hc => h c (List.mem_cons_of_mem _ hc))]
    rfl

/-- Reading back the text of a natural number. -/
theorem stoi_showNat (n : Nat) (h : (n : Int) ≤ INT_MAX) : stoi (showNat n) = Except.ok (n : Int) := by
  obtain ⟨h1, h2, h3⟩ := showNat_spec n
  obtain ⟨c, cs, hcs⟩ := List.exists_cons_of_ne_nil h3
  have hc : c.isDigit = true := h1 c (by rw [hcs]; exact List.mem_cons_self _ _)
  obtain ⟨-, -, hm, hp, hsp⟩ := isDigit_not_special hc
  have hdrop : (showNat n).dropWhile isSpace = showNat n := by
    rw [hcs, List.dropWhile_cons, hsp]; rfl
  have hsign : splitSign (showNat n) = (false, showNat n) := by
    rw [hcs]
    unfold splitSign
    split
    · rename_i heq; injection heq with h1 _; exact absurd h1 hm
    · rename_i heq; injection heq with h1 _; exact absurd h1 hp
    · rfl
  unfold stoi
  simp only [hdrop, hsign, takeWhile_eq_self_of_all _ _ h1, h2]
  have hne : (showNat n).isEmpty = false := by rw [hcs]; rfl
  simp only [hne, Bool.false_eq_true, if_false]
  have : INT_MIN ≤ (n : Int) := by unfold INT_MIN; omega
  simp [this, h]

/-- Reading back the text of an `int` gives the `int`. -/
theorem stoi_showInt (x : Int) (hx : isInt x) : stoi (showInt x) = Except.ok x := by
  cases x with
  | ofNat n => exact stoi_showNat n hx.2
  | negSucc n =>
    obtain ⟨h1, h2, h3⟩ := showNat_spec (n + 1)
    unfold stoi showInt
    have hdrop : ('-' :: showNat (n + 1)).dropWhile isSpace = '-' :: showNat (n + 1) := by
      rw [List.dropWhile_cons]; rfl
    have hne : (showNat (n + 1)).isEmpty = false := by
      cases hs : showNat (n + 1) with
      | nil => exact absurd hs h3
      | cons _ _ => rfl
    simp only [hdrop, splitSign, takeWhile_eq_self_of_all _ _ h1, h2, hne,
      Bool.false_eq_true, if_false, if_true]
    have hlo := hx.1
    unfold INT_MIN at hlo
    have e : -((n + 1 : Nat) : Int) = Int.negSucc n := by
      rw [Int.negSucc_eq]; push_cast; ring
    rw [e]
    have : INT_MIN ≤ Int.negSucc n ∧ Int.negSucc n ≤ INT_MAX := hx
    simp [this]

/-! ## Reading records -/

theorem readUntil_append_delim (delim : Char) (field rest : List Char)
    (h : delim ∉ field) : readUntil delim (field ++ delim :: rest) = (field, some rest) := by
  induction field with
  | nil => simp [readUntil]
  | cons c cs ih =>
    have hc : c ≠ delim := fun e => h (by rw [e]; exact List.mem_cons_self _ _)
    have ih' := ih (fun hm => h (List.mem_cons_of_mem _ hm))
    rw [List.cons_append, readUntil, if_neg hc, ih']

theorem readUntil_no_delim (delim : Char) (field : List Char) (h : delim ∉ field) :
    readUntil delim field = (field, none) := by
  induction field with
  | nil => rfl
  | cons c cs ih =>
    have hc : c ≠ delim := fun e => h (by rw [e]; exact List.mem_cons_self _ _)
    have ih' := ih (fun hm => h (List.mem_cons_of_mem _ hm))
    rw [readUntil, if_neg hc, ih']

/-- A `getline` on a good stream whose text starts with a delimiter-free field and the
delimiter. -/
theorem getline_field (delim : Char) (field rest str : List Char) (h : delim ∉ field) :
    getline (IStream.open (field ++ delim :: rest)) str delim = (field, IStream.open rest) := by
  simp [getline, IStream.open, IStream.good, readUntil_append_delim delim field rest h]

theorem getline_last (delim : Char) (field str : List Char) (h : delim ∉ field) :
    (getline (IStream.open field) str delim).1 = field := by
  simp [getline, IStream.open, IStream.good, readUntil_no_delim delim field h]

theorem showInt_no_bar (x : Int) : '|' ∉ showInt x :=
  fun h => (isNumberChar_ne_delim (showInt_chars x _ h)).1 rfl

theorem showInt_no_newline (x : Int) : '\n' ∉ showInt x :=
  fun h => (isNumberChar_ne_delim (showInt_chars x _ h)).2 rfl

/-- The record of a task whose text fields hold no `|` parses back to the task. -/
theorem deserialize_serialize (t : Task) (hr : t.intsInRange) (hbar : ¬ t.textHas '|') :
    Task.deserialize t.serialize = Except.ok t := by
  obtain ⟨hid, hdur, hpri⟩ := hr
  have h1 : '|' ∉ t.title.data := fun h => hbar (Or.inl h)
  have h2 : '|' ∉ t.subject.data := fun h => hbar (Or.inr (Or.inl h))
  have h3 : '|' ∉ t.due_date.data := fun h => hbar (Or.inr (Or.inr h))
  unfold Task.deserialize Task.serialize
  simp only [getline_field '|' _ _ _ (showInt_no_bar _), getline_field '|' _ _ _ h1,
    getline_field '|' _ _ _ h2, getline_field '|' _ _ _ h3, stoi_showInt _ hid,
    stoi_showInt _ hdur, stoi_showInt _ hpri, getline_last '|' _ _ (showInt_no_bar _)]
  cases t with
  | mk id title subject dur pri due completed =>
    cases completed <;> simp <;> decide

/-- Claim C4. For every task whose `int` fields are `int` values (negative ones
included) and whose title, subject and due date hold no `|`, either value of `completed`,
`Task::deserialize(t.serialize())` returns normally and gives back `t`, equal in all seven
fields. -/
theorem deserialize_serialize_roundtrip (t : Task) (hr : t.intsInRange)
    (hbar : ¬ t.textHas '|') : Task.deserialize t.serialize = Except.ok t :=
  deserialize_serialize t hr hbar

/-- Claim C4 at the first record of `importSampleData`. -/
theorem deserialize_serialize_roundtrip_witness :
    taskA.intsInRange ∧ ¬ taskA.textHas '|' ∧
      Task.deserialize taskA.serialize = Except.ok taskA :=
  ⟨by decide, by decide, deserialize_serialize_roundtrip taskA (by decide) (by decide)⟩

/-! ## Saving and loading -/

theorem serialize_no_newline (t : Task) (hnl : ¬ t.textHas '\n') : '\n' ∉ t.serialize.data := by
  have h1 : '\n' ∉ t.title.data := fun h => hnl (Or.inl h)
  have h2 : '\n' ∉ t.subject.data := fun h => hnl (Or.inr (Or.inl h))
  have h3 : '\n' ∉ t.due_date.data := fun h => hnl (Or.inr (Or.inr h))
  have hb : ('\n' : Char) ≠ '|' := by decide
  simp only [Task.serialize, List.mem_append, List.mem_cons, not_or]
  refine ⟨showInt_no_newline _, hb, h1, hb, h2, hb, showInt_no_newline _, hb,
    showInt_no_newline _, hb, h3, hb, showInt_no_newline _⟩

theorem serialize_ne_nil (t : Task) : t.serialize.data ≠ [] := by
  intro h
  have : '|' ∈ t.serialize.data := by
    simp [Task.serialize]
  rw [h] at this
  simp at this

/-- Reading back what `saveTasks` wrote, with enough iterations. -/
theorem loadLoop_fileText (ts : List Task) :
    ∀ (fuel : Nat) (line : List Char) (acc : List Task) (maxId : Int),
      ts.length < fuel →
      (∀ t ∈ ts, t.intsInRange ∧ ¬ t.textHas '|' ∧ ¬ t.textHas '\n') →
      loadLoop fuel (IStream.open (fileText ts)) line acc maxId
        = Except.ok (acc ++ ts, maxIdOf ts maxId) := by
  induction ts with
  | nil =>
    intro fuel line acc maxId hf _
    obtain ⟨k, rfl⟩ : ∃ k, fuel = k + 1 := ⟨fuel - 1, by simp at hf; omega⟩
    simp [loadLoop, fileText, getline, IStream.open, IStream.good, readUntil, maxIdOf]
  | cons t rest ih =>
    intro fuel line acc maxId hf hgood
    obtain ⟨k, rfl⟩ : ∃ k, fuel = k + 1 := ⟨fuel - 1, by simp at hf; omega⟩
    obtain ⟨hr, hbar, hnl⟩ := hgood t (List.mem_cons_self _ _)
    have hline := getline_field '\n' t.serialize.data (fileText rest) line
      (serialize_no_newline t hnl)
    have hne : t.serialize.data.isEmpty = false := by
      cases hs : t.serialize.data with
      | nil => exact absurd hs (serialize_ne_nil t)
      | cons _ _ => rfl
    have hdes : Task.deserialize (String.mk t.serialize.data) = Except.ok t :=
      deserialize_serialize t hr hbar
    have hlen : rest.length < k := by simp at hf; omega
    rw [loadLoop]
    have hfail : (IStream.open (fileText rest)).fail = false := rfl
    simp only [fileText, hline, hfail, hne, hdes, Bool.false_eq_true, if_false]
    rw [ih k t.serialize.data (acc ++ [t]) (if t.id > maxId then t.id else maxId) hlen
      (fun u hu => hgood u (List.mem_cons_of_mem _ hu))]
    simp [maxIdOf]

theorem length_le_fileText (ts : List Task) : ts.length ≤ (fileText ts).length := by
  induction ts with
  | nil => simp
  | cons t rest ih =>
    simp only [fileText, List.length_cons, List.length_append]
    omega

/-- Claim C5. Let the store be well formed (as every store the program can hold is, see
`wellFormed_run` and `loadTasks_wellFormed`: numbers are `int` values and text fields are
lines), let `tasks.db` be writable and let no title, subject or due date hold `|`. Then
`saveTasks` writes one record per task, and `loadTasks`, run in any state of the program
that finds this file (the same process or the next start), returns normally with the
same tasks, in the same order, each equal to the original in all fields. -/
theorem save_load_roundtrip (s s0 : Store) (hwf : s.wellFormed) (hw : s.writable = true)
    (hbar : ∀ t ∈ s.tasks, ¬ t.textHas '|') (hfile : s0.db = (saveTasks s).db) :
    (saveTasks s).db = some (fileText s.tasks) ∧
      ∃ s', loadTasks s0 = Except.ok s' ∧ s'.tasks = s.tasks := by
  have hdb : (saveTasks s).db = some (fileText s.tasks) := by
    simp only [saveTasks, hw, if_true]
  have hl := loadLoop_fileText s.tasks ((fileText s.tasks).length + 2) [] [] 0
    (by have := length_le_fileText s.tasks; omega)
    (fun t ht => ⟨(hwf.2 t ht).1, hbar t ht, (hwf.2 t ht).2⟩)
  refine ⟨hdb, ?_⟩
  rw [hdb] at hfile
  simp only [loadTasks, hfile, hl, List.nil_append]
  exact ⟨_, rfl, rfl⟩

/-- Claim C5 at the store of the three sample tasks, read back by a fresh process. -/
theorem save_load_roundtrip_witness :
    (saveTasks sampleStore).db = some (fileText sampleStore.tasks) ∧
      ∃ s', loadTasks
          { tasks := [], nextId := 1, db := (saveTasks sampleStore).db, writable := true,
            saveCalls := 0 } = Except.ok s' ∧ s'.tasks = sampleStore.tasks :=
  save_load_roundtrip sampleStore
    { tasks := [], nextId := 1, db := (saveTasks sampleStore).db, writable := true,
      saveCalls := 0 } (by decide) rfl (by decide) rfl

/-! ## The loop of `loadTasks` ends -/

theorem readUntil_rest_length (delim : Char) (l : List Char) :
    ∀ r, (readUntil delim l).2 = some r → r.length < l.length := by
  induction l with
  | nil => intro r h; simp [readUntil] at h
  | cons c cs ih =>
    intro r h
    unfold readUntil at h
    split at h
    · simp only [Option.some.injEq] at h
      subst h
      simp
    · have := ih r h
      simp only [List.length_cons]
      omega

theorem getline_linesBound (s : IStream) (str : List Char) (delim : Char)
    (h : (getline s str delim).2.fail = false) :
    (getline s str delim).2.linesBound < s.linesBound := by
  by_cases hg : s.good = true
  · have hb : s.linesBound = s.rest.length + 2 := by simp [IStream.linesBound, hg]
    rw [hb]
    unfold getline
    simp only [hg, if_true]
    cases hr : (readUntil delim s.rest).2 with
    | none =>
      have e : readUntil delim s.rest = ((readUntil delim s.rest).1, none) := by
        rw [← hr]
      rw [e]
      simp [IStream.linesBound, IStream.good]
    | some r =>
      have e : readUntil delim s.rest = ((readUntil delim s.rest).1, some r) := by
        rw [← hr]
      have hl := readUntil_rest_length delim s.rest r hr
      rw [e]
      simp only [IStream.linesBound, IStream.good, Bool.not_false, Bool.and_self, if_true]
      omega
  · unfold getline at h
    simp only [hg] at h
    simp at h

/-- More iterations than `linesBound` allows change nothing: the loop of `loadTasks` has
ended by then. -/
theorem loadLoop_fuel (fuel : Nat) :
    ∀ (k : Nat) (input : IStream) (line : List Char) (tasks : List Task) (maxId : Int),
      input.linesBound ≤ fuel →
      loadLoop (fuel + k) input line tasks maxId = loadLoop fuel input line tasks maxId := by
  induction fuel with
  | zero =>
    intro k input line tasks maxId h
    unfold IStream.linesBound at h
    split at h <;> omega
  | succ fuel ih =>
    intro k input line tasks maxId h
    have e : fuel + 1 + k = (fuel + k) + 1 := by omega
    rw [e, loadLoop, loadLoop]
    by_cases hf : (getline input line '\n').2.fail = true
    · simp [hf]
    · have hf' : (getline input line '\n').2.fail = false := by simpa using hf
      have hb := getline_linesBound input line '\n' hf'
      have hle : (getline input line '\n').2.linesBound ≤ fuel := by omega
      simp only [hf', Bool.false_eq_true, if_false]
      split
      · exact ih k _ _ _ _ hle
      · split
        · rfl
        · exact ih k _ _ _ _ hle

/-- The number of iterations `loadTasks` allows is enough for every file. -/
theorem loadTasks_fuel (text : List Char) (k : Nat) (line : List Char) (tasks : List Task)
    (maxId : Int) :
    loadLoop (text.length + 2 + k) (IStream.open text) line tasks maxId
      = loadLoop (text.length + 2) (IStream.open text) line tasks maxId :=
  loadLoop_fuel _ k _ _ _ _ (by simp [IStream.linesBound, IStream.open, IStream.good])

/-! ## The display comparator (claim C9) -/

theorem displayLess_iff (a b : Task) : displayLess a b = true ↔ displayKey a < displayKey b := by
  unfold displayLess displayKey strLess
  rw [Prod.Lex.lt_iff]
  simp only [ofLex_toLex, Prod.Lex.lt_iff]
  by_cases hc : a.completed = b.completed
  · by_cases hp : a.priority = b.priority
    · simp [hc, hp]
    · simp [hc, hp]
  · cases ha : a.completed <;> cases hb : b.completed <;> simp_all

theorem displayKey_eq_iff (a b : Task) :
    displayKey a = displayKey b ↔
      a.completed = b.completed ∧ a.priority = b.priority ∧ a.due_date = b.due_date := by
  unfold displayKey
  constructor
  · intro h
    have h1 := congrArg (fun k => (ofLex k).1) h
    have h2 := congrArg (fun k => (ofLex (ofLex k).2).1) h
    have h3 := congrArg (fun k => (ofLex (ofLex k).2).2) h
    simp only [ofLex_toLex] at h1 h2 h3
    exact ⟨h1, h2, String.ext h3⟩
  · rintro ⟨h1, h2, h3⟩
    rw [h1, h2, h3]

theorem strLess_empty (s : String) (h : s ≠ "") : strLess "" s = true := by
  unfold strLess
  have hd : s.data ≠ [] := fun e => h (String.ext e)
  obtain ⟨c, cs, hcs⟩ := List.exists_cons_of_ne_nil hd
  rw [hcs]
  simp only [decide_eq_true_eq]
  exact List.nil_lt_cons c cs

/-- Claim C9. The comparison of `listTasks` is the lexicographic order on the key chain
completed (incomplete first), priority (ascending), due date (ascending, lexical, the
empty string before every other one). It is irreflexive and transitive, of two tasks that
differ in one of the three keys exactly one is before the other, and two tasks with the
same three keys are not ordered: a strict total order on key triples. -/
theorem displayLess_strict_total_order (a b c : Task) :
    (displayLess a b = true ↔
        (a.completed = false ∧ b.completed = true) ∨
          (a.completed = b.completed ∧
            (a.priority < b.priority ∨
              (a.priority = b.priority ∧ strLess a.due_date b.due_date = true)))) ∧
      (a.due_date = "" → b.due_date ≠ "" → strLess a.due_date b.due_date = true) ∧
      displayLess a a = false ∧
      (displayLess a b = true → displayLess b c = true → displayLess a c = true) ∧
      ((a.completed ≠ b.completed ∨ a.priority ≠ b.priority ∨ a.due_date ≠ b.due_date) →
        (displayLess a b = true ∧ displayLess b a = false) ∨
          (displayLess b a = true ∧ displayLess a b = false)) ∧
      (a.completed = b.completed → a.priority = b.priority → a.due_date = b.due_date →
        displayLess a b = false ∧ displayLess b a = false) := by
  refine ⟨?_, ?_, ?_, ?_, ?_, ?_⟩
  · unfold displayLess
    by_cases hc : a.completed = b.completed
    · by_cases hp : a.priority = b.priority
      · simp [hc, hp]
      · simp [hc, hp]
    · cases ha : a.completed <;> cases hb : b.completed <;> simp_all
  · intro ha hb
    rw [ha]
    exact strLess_empty _ hb
  · have : ¬ displayLess a a = true := by
      rw [displayLess_iff]; exact lt_irrefl _
    simpa using this
  · intro h1 h2
    rw [displayLess_iff] at *
    exact lt_trans h1 h2
  · intro hne
    have hk : displayKey a ≠ displayKey b := by
      rw [Ne, displayKey_eq_iff]
      intro ⟨h1, h2, h3⟩
      rcases hne with h | h | h
      · exact h h1
      · exact h h2
      · exact h h3
    rcases lt_or_gt_of_ne hk with h | h
    · left
      refine ⟨(displayLess_iff a b).2 h, ?_⟩
      have : ¬ displayLess b a = true := by
        rw [displayLess_iff]; exact lt_asymm h
      simpa using this
    · right
      refine ⟨(displayLess_iff b a).2 h, ?_⟩
      have : ¬ displayLess a b = true := by
        rw [displayLess_iff]; exact lt_asymm h
      simpa using this
  · intro h1 h2 h3
    have hk : displayKey a = displayKey b := (displayKey_eq_iff a b).2 ⟨h1, h2, h3⟩
    constructor
    · have : ¬ displayLess a b = true := by
        rw [displayLess_iff, hk]; exact lt_irrefl _
      simpa using this
    · have : ¬ displayLess b a = true := by
        rw [displayLess_iff, hk]; exact lt_irrefl _
      simpa using this

theorem displayLess_strictWeak : StrictWeak displayLess where
  asymm a b h := by
    have : ¬ displayLess b a = true := by
      rw [displayLess_iff] at *; exact lt_asymm h
    simpa using this
  negTrans a b c h1 h2 := by
    have e : ∀ x y, displayLess x y = false ↔ displayKey y ≤ displayKey x := by
      intro x y
      rw [← not_lt, ← displayLess_iff]; simp
    rw [e] at *
    exact le_trans h1 h2

/-! ## Looking a task up and assigning through the pointer -/

theorem findTaskById_eq_none_iff (tasks : List Task) (id : Int) :
    findTaskById tasks id = none ↔ ∀ t ∈ tasks, t.id ≠ id := by
  induction tasks with
  | nil => simp [findTaskById]
  | cons t rest ih =>
    unfold findTaskById
    by_cases h : t.id = id
    · simp [h]
    · simp [h, ih]

/-- The pointer `findTaskById` returns is the position of the first task with the id. -/
theorem findTaskById_first (pre : List Task) (t : Task) (post : List Task) (id : Int)
    (ht : t.id = id) (hpre : ∀ u ∈ pre, u.id ≠ id) :
    findTaskById (pre ++ t :: post) id = some pre.length := by
  induction pre with
  | nil => simp [findTaskById, ht]
  | cons u pre ih =>
    have hu : u.id ≠ id := hpre u (List.mem_cons_self _ _)
    have := ih (fun v hv => hpre v (List.mem_cons_of_mem _ hv))
    simp [findTaskById, hu, this]

theorem findTaskById_some (tasks : List Task) (id : Int) (i : Nat)
    (h : findTaskById tasks id = some i) :
    ∃ pre t post, tasks = pre ++ t :: post ∧ pre.length = i ∧ t.id = id ∧
      ∀ u ∈ pre, u.id ≠ id := by
  induction tasks generalizing i with
  | nil => simp [findTaskById] at h
  | cons t rest ih =>
    unfold findTaskById at h
    by_cases ht : t.id = id
    · rw [if_pos ht] at h
      cases h
      exact ⟨[], t, rest, rfl, rfl, ht, by simp⟩
    · rw [if_neg ht] at h
      cases hf : findTaskById rest id with
      | none => rw [hf] at h; simp at h
      | some j =>
        rw [hf] at h
        simp only [Option.map_some', Option.some.injEq] at h
        obtain ⟨pre, u, post, h1, h2, h3, h4⟩ := ih j hf
        refine ⟨t :: pre, u, post, by rw [h1]; rfl, by simp [h2, h], h3, ?_⟩
        intro v hv
        rcases List.mem_cons.1 hv with rfl | hv
        · exact ht
        · exact h4 v hv

theorem updateAt_length (f : Task → Task) (pre : List Task) (t : Task) (post : List Task) :
    updateAt f (pre ++ t :: post) pre.length = pre ++ f t :: post := by
  induction pre with
  | nil => rfl
  | cons u pre ih => simp [updateAt, ih]

theorem get?_append_length (pre : List Task) (t : Task) (post : List Task) :
    (pre ++ t :: post).get? pre.length = some t := by
  induction pre with
  | nil => rfl
  | cons u pre ih => simpa using ih

theorem saveTasks_tasks (s : Store) : (saveTasks s).tasks = s.tasks := by
  unfold saveTasks; split <;> rfl

theorem saveTasks_nextId (s : Store) : (saveTasks s).nextId = s.nextId := by
  unfold saveTasks; split <;> rfl

theorem saveTasks_saveCalls (s : Store) : (saveTasks s).saveCalls = s.saveCalls + 1 := by
  unfold saveTasks; split <;> rfl

/-- One toggle on a present id, on the store split at the first task with the id. -/
theorem toggleComplete_first (s : Store) (id : Int) (pre : List Task) (t : Task)
    (post : List Task) (hs : s.tasks = pre ++ t :: post) (ht : t.id = id)
    (hpre : ∀ u ∈ pre, u.id ≠ id) :
    (toggleComplete s id).1.tasks = pre ++ { t with completed := !t.completed } :: post ∧
      (toggleComplete s id).1.nextId = s.nextId ∧
      (toggleComplete s id).2
        = (if t.completed then Message.markedIncomplete else Message.markedComplete) := by
  have hfind := findTaskById_first pre t post id ht hpre
  unfold toggleComplete
  rw [hs, hfind]
  simp only [saveTasks_tasks, saveTasks_nextId, updateAt_length, get?_append_length]
  refine ⟨trivial, trivial, ?_⟩
  cases t.completed <;> rfl

theorem toggleComplete_absent (s : Store) (id : Int) (h : ∀ t ∈ s.tasks, t.id ≠ id) :
    toggleComplete s id = (s, Message.taskNotFound) := by
  unfold toggleComplete
  rw [(findTaskById_eq_none_iff s.tasks id).2 h]

/-- Claim C7. Toggling the same id twice gives back the original task list and counter.
One toggle on a present id replaces the first task with that id by the same task with
`completed` negated and changes no other task, nor the order, nor the counter; on an
absent id it changes nothing and reports not-found. -/
theorem toggleComplete_twice (s : Store) (id : Int) :
    ((toggleComplete (toggleComplete s id).1 id).1.tasks = s.tasks ∧
        (toggleComplete (toggleComplete s id).1 id).1.nextId = s.nextId) ∧
      (∀ pre t post, s.tasks = pre ++ t :: post → t.id = id → (∀ u ∈ pre, u.id ≠ id) →
        (toggleComplete s id).1.tasks = pre ++ { t with completed := !t.completed } :: post ∧
          (toggleComplete s id).1.nextId = s.nextId) ∧
      ((∀ t ∈ s.tasks, t.id ≠ id) → toggleComplete s id = (s, Message.taskNotFound)) := by
  refine ⟨?_, ?_, toggleComplete_absent s id⟩
  · cases hf : findTaskById s.tasks id with
    | none =>
      have habs := (findTaskById_eq_none_iff s.tasks id).1 hf
      rw [toggleComplete_absent s id habs]
      simp only
      rw [toggleComplete_absent s id habs]
      exact ⟨rfl, rfl⟩
    | some i =>
      obtain ⟨pre, t, post, h1, -, h3, h4⟩ := findTaskById_some s.tasks id i hf
      obtain ⟨e1, e2, -⟩ := toggleComplete_first s id pre t post h1 h3 h4
      obtain ⟨e3, e4, -⟩ := toggleComplete_first (toggleComplete s id).1 id pre
        { t with completed := !t.completed } post e1 h3 h4
      rw [e3, e4, e2, h1]
      refine ⟨?_, rfl⟩
      cases t with
      | mk _ _ _ _ _ _ completed => cases completed <;> rfl
  · intro pre t post h1 h2 h3
    obtain ⟨e1, e2, -⟩ := toggleComplete_first s id pre t post h1 h2 h3
    exact ⟨e1, e2⟩

/-! ## Deleting -/

/-- Claim C8. The function `removeTask` reports not-found exactly when no task carries
the id; it then returns the store as it was (tasks, order, `nextId`, file) and has not
called `saveTasks`. -/
theorem removeTask_not_found (s : Store) (id : Int) :
    ((removeTask s id).2 = Message.taskNotFound ↔ ∀ t ∈ s.tasks, t.id ≠ id) ∧
      ((∀ t ∈ s.tasks, t.id ≠ id) → removeTask s id = (s, Message.taskNotFound)) ∧
      ((removeTask s id).2 = Message.taskNotFound →
        (removeTask s id).1.saveCalls = s.saveCalls) := by
  have hlen : (s.tasks.filter (fun t => !decide (t.id = id))).length = s.tasks.length ↔
      ∀ t ∈ s.tasks, t.id ≠ id := by
    rw [List.filter_length_eq_length]
    simp
  have habs : (∀ t ∈ s.tasks, t.id ≠ id) → removeTask s id = (s, Message.taskNotFound) := by
    intro h
    unfold removeTask
    simp only
    rw [if_pos (hlen.2 h)]
  have hiff : (removeTask s id).2 = Message.taskNotFound ↔ ∀ t ∈ s.tasks, t.id ≠ id := by
    constructor
    · intro h
      by_contra hne
      unfold removeTask at h
      simp only at h
      rw [if_neg (fun hl => hne (hlen.1 hl))] at h
      cases h
    · intro h
      rw [habs h]
  refine ⟨hiff, habs, ?_⟩
  intro h
  rw [habs (hiff.1 h)]

/-! ## Adding -/

/-- What one `addTask` does to the store. -/
theorem addTask_effect (s : Store) (title subject : String) (duration priority : Int)
    (due : String) :
    (addTask s title subject duration priority due).2 = Message.added s.nextId ∧
      (addTask s title subject duration priority due).1.tasks
        = s.tasks ++
            [{ id := s.nextId, title := title, subject := subject,
               duration_minutes := duration, priority := priority, due_date := due,
               completed := false }] ∧
      (addTask s title subject duration priority due).1.nextId = wrapInt (s.nextId + 1) := by
  unfold addTask
  simp only [saveTasks_tasks, saveTasks_nextId]
  exact ⟨trivial, trivial, trivial⟩

theorem editTask_nextId (s : Store) (id : Int) (e : EditInput) (r : Store × Message)
    (h : editTask s id e = Except.ok r) :
    r.1.nextId = s.nextId ∧ ∀ i, r.2 ≠ Message.added i := by
  unfold editTask at h
  split at h
  · cases h; exact ⟨rfl, fun i hi => by cases hi⟩
  · split at h
    · cases h; exact ⟨rfl, fun i hi => by cases hi⟩
    · split at h
      · cases h
      · cases h
        exact ⟨by rw [saveTasks_nextId], fun i hi => by cases hi⟩

theorem removeTask_nextId (s : Store) (id : Int) :
    (removeTask s id).1.nextId = s.nextId ∧ ∀ i, (removeTask s id).2 ≠ Message.added i := by
  unfold removeTask
  simp only
  split
  · exact ⟨rfl, fun i hi => by cases hi⟩
  · exact ⟨by rw [saveTasks_nextId], fun i hi => by cases hi⟩

theorem toggleComplete_nextId (s : Store) (id : Int) :
    (toggleComplete s id).1.nextId = s.nextId ∧
      ∀ i, (toggleComplete s id).2 ≠ Message.added i := by
  unfold toggleComplete
  split
  · exact ⟨rfl, fun i hi => by cases hi⟩
  · simp only [saveTasks_nextId]
    refine ⟨trivial, fun i hi => ?_⟩
    split at hi <;> cases hi

/-- What one menu choice does to the counter, and which id it can report as added. -/
theorem step_counter (s : Store) (op : Op) (r : Store × Message)
    (h : step s op = Except.ok r) (hint : isInt s.nextId) :
    isInt r.1.nextId ∧
      (s.nextId + op.idDemand ≤ INT_MAX → r.1.nextId = s.nextId + op.idDemand) ∧
      (∀ i, r.2 = Message.added i → i = s.nextId ∧ op.idDemand = 1) := by
  cases op with
  | list showCompleted =>
    simp only [step, Except.ok.injEq] at h
    subst h
    exact ⟨hint, fun _ => by simp [Op.idDemand], fun i hi => by cases hi⟩
  | add title subject duration priority due =>
    simp only [step, Except.ok.injEq] at h
    subst h
    obtain ⟨h1, -, h3⟩ := addTask_effect s title subject duration priority due
    rw [h1, h3]
    refine ⟨isInt_wrapInt _, ?_, ?_⟩
    · intro hb
      simp only [Op.idDemand, Nat.cast_one] at hb ⊢
      apply wrapInt_of_isInt
      simp only [isInt, INT_MIN, INT_MAX] at *
      constructor <;> omega
    · intro i hi
      cases hi
      exact ⟨rfl, rfl⟩
  | edit id e =>
    simp only [step] at h
    obtain ⟨h1, h2⟩ := editTask_nextId s id e r h
    rw [h1]
    exact ⟨hint, fun _ => by simp [Op.idDemand], fun i hi => absurd hi (h2 i)⟩
  | remove id =>
    simp only [step, Except.ok.injEq] at h
    subst h
    obtain ⟨h1, h2⟩ := removeTask_nextId s id
    rw [h1]
    exact ⟨hint, fun _ => by simp [Op.idDemand], fun i hi => absurd hi (h2 i)⟩
  | toggle id =>
    simp only [step, Except.ok.injEq] at h
    subst h
    obtain ⟨h1, h2⟩ := toggleComplete_nextId s id
    rw [h1]
    exact ⟨hint, fun _ => by simp [Op.idDemand], fun i hi => absurd hi (h2 i)⟩
  | plan available =>
    simp only [step, Except.ok.injEq] at h
    subst h
    exact ⟨hint, fun _ => by simp [Op.idDemand], fun i hi => by cases hi⟩
  | importSample =>
    simp only [step, Except.ok.injEq] at h
    subst h
    simp only [importSampleData, saveTasks_nextId]
    refine ⟨isInt_wrapInt _, ?_, fun i hi => by cases hi⟩
    intro hb
    simp only [Op.idDemand, Nat.cast_ofNat] at hb ⊢
    simp only [isInt, INT_MIN, INT_MAX, wrapInt] at *
    omega
  | save =>
    simp only [step, Except.ok.injEq] at h
    subst h
    simp only [saveTasks_nextId]
    exact ⟨hint, fun _ => by simp [Op.idDemand], fun i hi => by cases hi⟩

theorem addedIds_cons (m : Message) (l : List Message) :
    addedIds (m :: l) = addedIds [m] ++ addedIds l := by
  cases m <;> simp [addedIds]

theorem addedIds_single (m : Message) :
    addedIds [m] = [] ∨ ∃ i, m = Message.added i ∧ addedIds [m] = [i] := by
  cases m <;> simp [addedIds]

theorem idDemand_cons (op : Op) (ops : List Op) :
    idDemand (op :: ops) = op.idDemand + idDemand ops := by
  simp [idDemand]

/-- A run that takes no id from the counter reports no added id. -/
theorem addedIds_of_no_demand (ops : List Op) :
    ∀ s : Store, isInt s.nextId → idDemand ops = 0 → addedIds (run s ops).2 = [] := by
  induction ops with
  | nil => intro s _ _; rfl
  | cons op rest ih =>
    intro s hint hd
    rw [idDemand_cons] at hd
    unfold run
    split
    · rfl
    · rename_i r hr
      obtain ⟨h1, -, h3⟩ := step_counter s op r hr hint
      simp only
      rw [addedIds_cons, ih r.1 h1 (by omega)]
      rcases addedIds_single r.2 with h | ⟨i, hi, -⟩
      · rw [h]; rfl
      · have := (h3 i hi).2
        omega

/-- While the counter stays in range, the ids a run reports as added increase strictly
and start no lower than the counter. -/
theorem addedIds_increasing (ops : List Op) :
    ∀ s : Store, isInt s.nextId → s.nextId + idDemand ops ≤ INT_MAX + 1 →
      (addedIds (run s ops).2).Sorted (· < ·) ∧
        ∀ i ∈ addedIds (run s ops).2, s.nextId ≤ i := by
  induction ops with
  | nil => intro s _ _; simp [run, addedIds]
  | cons op rest ih =>
    intro s hint hb
    rw [idDemand_cons] at hb
    unfold run
    split
    · simp [addedIds]
    · rename_i r hr
      obtain ⟨h1, h2, h3⟩ := step_counter s op r hr hint
      simp only
      rw [addedIds_cons]
      by_cases hrest : idDemand rest = 0
      · rw [addedIds_of_no_demand rest r.1 h1 hrest, List.append_nil]
        rcases addedIds_single r.2 with h | ⟨i, hi, hsingle⟩
        · rw [h]; simp
        · rw [hsingle]
          have := (h3 i hi).1
          simp [this]
      · have hnext : r.1.nextId = s.nextId + op.idDemand := by
          apply h2
          push_cast at hb
          omega
        obtain ⟨ih1, ih2⟩ := ih r.1 h1 (by rw [hnext]; push_cast at hb ⊢; omega)
        rcases addedIds_single r.2 with h | ⟨i, hi, hsingle⟩
        · rw [h, List.nil_append]
          refine ⟨ih1, fun j hj => ?_⟩
          have := ih2 j hj
          omega
        · obtain ⟨hi1, hi2⟩ := h3 i hi
          rw [hsingle, List.singleton_append]
          refine ⟨List.sorted_cons.2 ⟨fun j hj => ?_, ih1⟩, fun j hj => ?_⟩
          · have := ih2 j hj
            omega
          · rcases List.mem_cons.1 hj with rfl | hj
            · omega
            · have := ih2 j hj
              omega

/-- What one menu choice does to the counter, overflow included. -/
theorem step_counter_wrap (s : Store) (op : Op) (r : Store × Message)
    (h : step s op = Except.ok r) (hint : isInt s.nextId) :
    r.1.nextId = wrapInt (s.nextId + op.idDemand) := by
  have hsame : wrapInt (s.nextId + (0 : Nat)) = s.nextId := by
    simp only [isInt, INT_MIN, INT_MAX, wrapInt] at *
    omega
  cases op with
  | list showCompleted =>
    simp only [step, Except.ok.injEq] at h
    subst h
    exact hsame.symm
  | add title subject duration priority due =>
    simp only [step, Except.ok.injEq] at h
    subst h
    rw [(addTask_effect s title subject duration priority due).2.2]
    simp [Op.idDemand]
  | edit id e =>
    simp only [step] at h
    rw [(editTask_nextId s id e r h).1]
    exact hsame.symm
  | remove id =>
    simp only [step, Except.ok.injEq] at h
    subst h
    rw [(removeTask_nextId s id).1]
    exact hsame.symm
  | toggle id =>
    simp only [step, Except.ok.injEq] at h
    subst h
    rw [(toggleComplete_nextId s id).1]
    exact hsame.symm
  | plan available =>
    simp only [step, Except.ok.injEq] at h
    subst h
    exact hsame.symm
  | importSample =>
    simp only [step, Except.ok.injEq] at h
    subst h
    simp only [importSampleData, saveTasks_nextId, Op.idDemand, Nat.cast_ofNat]
    simp only [isInt, INT_MIN, INT_MAX, wrapInt] at *
    omega
  | save =>
    simp only [step, Except.ok.injEq] at h
    subst h
    simp only [saveTasks_nextId]
    exact hsame.symm

/-- As long as a run takes at most `2^32` ids, the ids it reports as added are pairwise
distinct, overflow or not: each is the counter's start plus a different offset below
`2^32`, wrapped. -/
theorem addedIds_nodup (ops : List Op) :
    ∀ s : Store, isInt s.nextId → idDemand ops ≤ 4294967296 →
      (addedIds (run s ops).2).Nodup ∧
        ∀ i ∈ addedIds (run s ops).2,
          ∃ k : Nat, k < idDemand ops ∧ i = wrapInt (s.nextId + k) := by
  induction ops with
  | nil => intro s _ _; simp [run, addedIds]
  | cons op rest ih =>
    intro s hint hb
    rw [idDemand_cons] at hb ⊢
    unfold run
    split
    · simp [addedIds]
    · rename_i r hr
      obtain ⟨h1, -, h3⟩ := step_counter s op r hr hint
      have hnext := step_counter_wrap s op r hr hint
      obtain ⟨ih1, ih2⟩ := ih r.1 h1 (by omega)
      have hshift : ∀ i ∈ addedIds (run r.1 rest).2,
          ∃ k : Nat, op.idDemand ≤ k ∧ k < op.idDemand + idDemand rest ∧
            i = wrapInt (s.nextId + k) := by
        intro i hi
        obtain ⟨k, hk, hik⟩ := ih2 i hi
        refine ⟨op.idDemand + k, by omega, by omega, ?_⟩
        rw [hik, hnext]
        simp only [wrapInt]
        push_cast
        omega
      simp only
      rw [addedIds_cons]
      rcases addedIds_single r.2 with h | ⟨i0, hi0, hsingle⟩
      · rw [h, List.nil_append]
        refine ⟨ih1, fun i hi => ?_⟩
        obtain ⟨k, -, hk, hik⟩ := hshift i hi
        exact ⟨k, hk, hik⟩
      · obtain ⟨hi1, hi2⟩ := h3 i0 hi0
        rw [hsingle, List.singleton_append]
        constructor
        · rw [List.nodup_cons]
          refine ⟨?_, ih1⟩
          intro hmem
          obtain ⟨k, hk1, hk2, hik⟩ := hshift i0 hmem
          rw [hi1] at hik
          simp only [isInt, INT_MIN, INT_MAX, wrapInt] at *
          omega
        · intro i hi
          rcases List.mem_cons.1 hi with rfl | hi
          · refine ⟨0, by omega, ?_⟩
            rw [hi1]
            simp only [isInt, INT_MIN, INT_MAX, wrapInt] at *
            omega
          · obtain ⟨k, -, hk, hik⟩ := hshift i hi
            exact ⟨k, hk, hik⟩


/-- Claim C6 fails as stated, in the order of the ids: after loading a file whose largest
id is `INT_MAX - 1` the counter is `INT_MAX`; counters being 32-bit, the second of two
adds gets a smaller id than the first. -/
theorem add_ids_counterexample :
    (loadTasks bigIdFileStore).map (fun s => s.nextId) = Except.ok 2147483647 ∧
      addedIds (run fullCounterStore
          [Op.add "a" "s" 30 1 "", Op.add "b" "s" 30 1 ""]).2
        = [2147483647, -2147483648] ∧
      ¬ ((2147483647 : Int) < -2147483648) := by
  decide

/-- Claim C6, amended. Let a run of menu choices (loading excluded) start from a store
whose counter `nextId` is an `int`. If `nextId` plus the number of ids the run takes (one
for an add, four for a sample import) is at most `INT_MAX + 1`, the ids reported by the
adds increase strictly in the order of the adds. If the run takes at most `2^32` ids, the
ids reported by the adds are pairwise distinct, overflow or not. On any store, an add
reports the current `nextId` and appends exactly one task, incomplete and carrying that
id, after the existing tasks, which stay as they were. -/
theorem add_ids_increasing (s : Store) (ops : List Op) (hint : isInt s.nextId) :
    (s.nextId + idDemand ops ≤ INT_MAX + 1 → (addedIds (run s ops).2).Sorted (· < ·)) ∧
      (idDemand ops ≤ 4294967296 → (addedIds (run s ops).2).Nodup) ∧
      (∀ (s' : Store) (title subject : String) (duration priority : Int) (due : String),
        (addTask s' title subject duration priority due).2 = Message.added s'.nextId ∧
          (addTask s' title subject duration priority due).1.tasks
            = s'.tasks ++
                [{ id := s'.nextId, title := title, subject := subject,
                   duration_minutes := duration, priority := priority, due_date := due,
                   completed := false }]) := by
  refine ⟨fun hb => (addedIds_increasing ops s hint hb).1,
    fun hd => (addedIds_nodup ops s hint hd).1, ?_⟩
  intro s' title subject duration priority due
  exact ⟨(addTask_effect s' title subject duration priority due).1,
    (addTask_effect s' title subject duration priority due).2.1⟩

/-- Claim C6 (amended) at a run with two adds around a toggle, a sample import and a
removal. -/
theorem add_ids_increasing_witness :
    (addedIds (run sampleStore
        [Op.add "a" "s" 30 1 "", Op.toggle 1, Op.importSample, Op.remove 4,
          Op.add "b" "s" 30 1 ""]).2).Sorted (· < ·) ∧
      (addedIds (run sampleStore
        [Op.add "a" "s" 30 1 "", Op.toggle 1, Op.importSample, Op.remove 4,
          Op.add "b" "s" 30 1 ""]).2).Nodup ∧
      (∀ (s' : Store) (title subject : String) (duration priority : Int) (due : String),
        (addTask s' title subject duration priority due).2 = Message.added s'.nextId ∧
          (addTask s' title subject duration priority due).1.tasks
            = s'.tasks ++
                [{ id := s'.nextId, title := title, subject := subject,
                   duration_minutes := duration, priority := priority, due_date := due,
                   completed := false }]) :=
  ⟨(add_ids_increasing sampleStore _ (by decide)).1 (by decide),
    (add_ids_increasing sampleStore _ (by decide)).2.1 (by decide),
    (add_ids_increasing sampleStore [] (by decide)).2.2⟩

/-! ## Empty plans (claims C11, C12, C15) -/

/-- The greedy loop selects nothing exactly when every candidate is longer than the
time available; `timeLeft` then keeps its value. -/
theorem greedySelect_eq_nil_iff (sorted : List Task) (timeLeft : Int) :
    (greedySelect sorted timeLeft).1 = [] ↔ ∀ t ∈ sorted, timeLeft < t.duration_minutes := by
  induction sorted with
  | nil => simp [greedySelect]
  | cons t rest ih =>
    unfold greedySelect
    split
    · rename_i hfit
      simp only [List.mem_cons, forall_eq_or_imp]
      constructor
      · intro h; cases h
      · intro h; omega
    · rename_i hfit
      rw [ih]
      simp only [List.mem_cons, forall_eq_or_imp]
      constructor
      · intro h; exact ⟨by omega, h⟩
      · intro h; exact h.2

theorem greedySelect_nil_timeLeft (sorted : List Task) (timeLeft : Int)
    (h : (greedySelect sorted timeLeft).1 = []) : (greedySelect sorted timeLeft).2 = timeLeft := by
  induction sorted with
  | nil => rfl
  | cons t rest ih =>
    unfold greedySelect at h ⊢
    split
    · rename_i hfit
      rw [if_pos hfit] at h
      cases h
    · rename_i hfit
      rw [if_neg hfit] at h
      exact ih h

theorem planAfterSort_of_nil (sorted : List Task) (available : Int)
    (h : (greedySelect sorted available).1 = []) :
    planAfterSort sorted available = PlanOutcome.noTaskFits available := by
  unfold planAfterSort
  simp only [h, List.isEmpty_nil, if_true]
  rw [greedySelect_nil_timeLeft sorted available h]

theorem planAfterSort_ne_noIncompleteTasks (sorted : List Task) (available : Int) :
    planAfterSort sorted available ≠ PlanOutcome.noIncompleteTasks := by
  unfold planAfterSort
  simp only
  split <;> intro h <;> cases h

theorem pool_isEmpty_iff (tasks : List Task) :
    (pool tasks).isEmpty = true ↔ ∀ t ∈ tasks, t.completed = true := by
  rw [List.isEmpty_iff, pool, List.filter_eq_nil_iff]
  simp

/-- Claim C11. When no task has a negative duration and the budget is negative, nothing
is selected, not even a task of duration 0: the plan is empty and the time left is still
the budget (the outcome is "no incomplete tasks" or "no task fits"). -/
theorem negative_budget_plan (tasks : List Task) (available : Int) (out : PlanOutcome)
    (hnn : ∀ t ∈ tasks, 0 ≤ t.duration_minutes) (hneg : available < 0)
    (hout : GeneratesPlan tasks available out) :
    out.plan = [] ∧ (∀ timeLeft, out.timeLeft? = some timeLeft → timeLeft = available) ∧
      (out = PlanOutcome.noIncompleteTasks ∨ out = PlanOutcome.noTaskFits available) := by
  unfold GeneratesPlan at hout
  split at hout
  · subst hout
    refine ⟨rfl, ?_, Or.inl rfl⟩
    intro tl h
    cases h
  · obtain ⟨sorted, hs, rfl⟩ := hout
    have hnil : (greedySelect sorted available).1 = [] := by
      rw [greedySelect_eq_nil_iff]
      intro t ht
      have := hnn t ((mem_pool tasks t).1 (hs.1.subset ht)).1
      omega
    rw [planAfterSort_of_nil sorted available hnil]
    refine ⟨rfl, ?_, Or.inr rfl⟩
    intro tl h
    cases h
    rfl

/-- Claim C11 at a store with a task of duration 0 and the budget -1. -/
theorem negative_budget_plan_witness :
    (generateDailyPlan [taskA, zeroTask] (-1)).plan = [] ∧
      (∀ timeLeft, (generateDailyPlan [taskA, zeroTask] (-1)).timeLeft? = some timeLeft →
        timeLeft = -1) ∧
      (generateDailyPlan [taskA, zeroTask] (-1) = PlanOutcome.noIncompleteTasks ∨
        generateDailyPlan [taskA, zeroTask] (-1) = PlanOutcome.noTaskFits (-1)) :=
  negative_budget_plan [taskA, zeroTask] (-1) _ (by decide) (by decide)
    (generateDailyPlan_generates _ _)

/-- Claim C12. Whatever the budget, the outcome is "no incomplete tasks" exactly when
every task of the store is completed (an empty store included). When an incomplete task
exists and the plan is empty the outcome is "no task fits", which is never the
"no incomplete tasks" outcome. -/
theorem no_incomplete_outcome (tasks : List Task) (available : Int) (out : PlanOutcome)
    (hout : GeneratesPlan tasks available out) :
    (out = PlanOutcome.noIncompleteTasks ↔ ∀ t ∈ tasks, t.completed = true) ∧
      ((∃ t ∈ tasks, t.completed = false) → out.plan = [] →
        ∃ timeLeft, out = PlanOutcome.noTaskFits timeLeft) ∧
      (∀ timeLeft, PlanOutcome.noIncompleteTasks ≠ PlanOutcome.noTaskFits timeLeft) := by
  refine ⟨?_, ?_, fun tl h => by cases h⟩
  · unfold GeneratesPlan at hout
    split at hout
    · rename_i he
      subst hout
      exact ⟨fun _ => (pool_isEmpty_iff tasks).1 he, fun _ => rfl⟩
    · rename_i he
      obtain ⟨sorted, hs, rfl⟩ := hout
      constructor
      · intro h
        exact absurd h (planAfterSort_ne_noIncompleteTasks sorted available)
      · intro h
        exact absurd ((pool_isEmpty_iff tasks).2 h) he
  · rintro ⟨t, ht, hc⟩ hplan
    unfold GeneratesPlan at hout
    split at hout
    · rename_i he
      have := (pool_isEmpty_iff tasks).1 he t ht
      rw [hc] at this
      cases this
    · obtain ⟨sorted, hs, rfl⟩ := hout
      rw [planAfterSort_plan] at hplan
      exact ⟨available, planAfterSort_of_nil sorted available hplan⟩

/-- Claim C12 at two incomplete sample tasks and the budget 10. -/
theorem no_incomplete_outcome_witness :
    (generateDailyPlan [taskA, taskB] 10 = PlanOutcome.noIncompleteTasks ↔
        ∀ t ∈ [taskA, taskB], t.completed = true) ∧
      ((∃ t ∈ [taskA, taskB], t.completed = false) →
        (generateDailyPlan [taskA, taskB] 10).plan = [] →
        ∃ timeLeft, generateDailyPlan [taskA, taskB] 10 = PlanOutcome.noTaskFits timeLeft) ∧
      (∀ timeLeft, PlanOutcome.noIncompleteTasks ≠ PlanOutcome.noTaskFits timeLeft) :=
  no_incomplete_outcome [taskA, taskB] 10 _ (generateDailyPlan_generates _ _)

/-- Claim C15. When the store holds an incomplete task, the plan is empty exactly when
every incomplete task is longer than the budget; the outcome is then "no task fits" with
the time left equal to the budget; and an incomplete task that fits the budget on its
own makes the plan non-empty. -/
theorem empty_plan_iff_none_fits (tasks : List Task) (available : Int) (out : PlanOutcome)
    (hex : ∃ t ∈ tasks, t.completed = false)
    (hout : GeneratesPlan tasks available out) :
    (out.plan = [] ↔ ∀ t ∈ tasks, t.completed = false → available < t.duration_minutes) ∧
      (out.plan = [] → out = PlanOutcome.noTaskFits available) ∧
      ((∃ t ∈ tasks, t.completed = false ∧ t.duration_minutes ≤ available) →
        out.plan ≠ []) := by
  obtain ⟨u, hu, huc⟩ := hex
  unfold GeneratesPlan at hout
  split at hout
  · rename_i he
    have := (pool_isEmpty_iff tasks).1 he u hu
    rw [huc] at this
    cases this
  · obtain ⟨sorted, hs, rfl⟩ := hout
    rw [planAfterSort_plan]
    have hiff : (greedySelect sorted available).1 = [] ↔
        ∀ t ∈ tasks, t.completed = false → available < t.duration_minutes := by
      rw [greedySelect_eq_nil_iff]
      constructor
      · intro h t ht hc
        exact h t (hs.1.mem_iff.2 ((mem_pool tasks t).2 ⟨ht, hc⟩))
      · intro h t ht
        have := (mem_pool tasks t).1 (hs.1.subset ht)
        exact h t this.1 this.2
    refine ⟨hiff, fun h => planAfterSort_of_nil sorted available h, ?_⟩
    rintro ⟨t, ht, hc, hfit⟩ hnil
    have := hiff.1 hnil t ht hc
    omega

/-- Claim C15 at two incomplete sample tasks and the budget 50. -/
theorem empty_plan_iff_none_fits_witness :
    ((generateDailyPlan [taskA, taskB] 50).plan = [] ↔
        ∀ t ∈ [taskA, taskB], t.completed = false → 50 < t.duration_minutes) ∧
      ((generateDailyPlan [taskA, taskB] 50).plan = [] →
        generateDailyPlan [taskA, taskB] 50 = PlanOutcome.noTaskFits 50) ∧
      ((∃ t ∈ [taskA, taskB], t.completed = false ∧ t.duration_minutes ≤ 50) →
        (generateDailyPlan [taskA, taskB] 50).plan ≠ []) :=
  empty_plan_iff_none_fits [taskA, taskB] 50 _ (by decide) (generateDailyPlan_generates _ _)

/-! ## The plan is maximal (claim C19) -/

/-- With no negative duration and a budget that is an `int`, the greedy loop never
raises `timeLeft`, and what it leaves is the budget minus what it selected. -/
theorem greedySelect_nonneg (sorted : List Task) :
    ∀ timeLeft : Int, (∀ t ∈ sorted, 0 ≤ t.duration_minutes) → timeLeft ≤ INT_MAX →
      (greedySelect sorted timeLeft).2 ≤ timeLeft ∧
        (greedySelect sorted timeLeft).2
          = timeLeft - durationSum (greedySelect sorted timeLeft).1 := by
  induction sorted with
  | nil => intro tl _ _; simp [greedySelect, durationSum]
  | cons t rest ih =>
    intro tl hnn hmax
    have ht := hnn t (List.mem_cons_self _ _)
    have hrest : ∀ u ∈ rest, 0 ≤ u.duration_minutes :=
      fun u hu => hnn u (List.mem_cons_of_mem _ hu)
    unfold greedySelect
    split
    · rename_i hfit
      have hw : wrapInt (tl - t.duration_minutes) = tl - t.duration_minutes := by
        apply wrapInt_of_isInt
        simp only [isInt, INT_MIN, INT_MAX] at *
        constructor <;> omega
      rw [hw]
      obtain ⟨h1, h2⟩ := ih (tl - t.duration_minutes) hrest (by omega)
      simp only [durationSum, List.map_cons, List.sum_cons] at h2 ⊢
      constructor <;> omega
    · exact ih tl hrest hmax

/-- A candidate the greedy loop passed over is longer than the time left at the end. -/
theorem greedySelect_skipped (sorted : List Task) :
    ∀ timeLeft : Int, (∀ t ∈ sorted, 0 ≤ t.duration_minutes) → timeLeft ≤ INT_MAX →
      ∀ t, (greedySelect sorted timeLeft).1.count t < sorted.count t →
        (greedySelect sorted timeLeft).2 < t.duration_minutes := by
  induction sorted with
  | nil => intro tl _ _ t h; simp [greedySelect] at h
  | cons x rest ih =>
    intro tl hnn hmax t hcount
    have hx := hnn x (List.mem_cons_self _ _)
    have hrest : ∀ u ∈ rest, 0 ≤ u.duration_minutes :=
      fun u hu => hnn u (List.mem_cons_of_mem _ hu)
    unfold greedySelect at hcount ⊢
    split
    · rename_i hfit
      rw [if_pos hfit] at hcount
      have hw : wrapInt (tl - x.duration_minutes) = tl - x.duration_minutes := by
        apply wrapInt_of_isInt
        simp only [isInt, INT_MIN, INT_MAX] at *
        constructor <;> omega
      rw [hw] at hcount ⊢
      simp only [List.count_cons] at hcount
      exact ih (tl - x.duration_minutes) hrest (by omega) t (by omega)
    · rename_i hfit
      rw [if_neg hfit] at hcount
      simp only [List.count_cons] at hcount
      by_cases hxt : x = t
      · have hle := (greedySelect_nonneg rest tl hrest hmax).1
        by_cases hc : (greedySelect rest tl).1.count t < rest.count t
        · exact ih tl hrest hmax t hc
        · rw [← hxt]; omega
      · have hne : (x == t) = false := by simpa using hxt
        simp only [hne, Bool.false_eq_true, if_false, add_zero] at hcount
        exact ih tl hrest hmax t hcount

/-- Claim C19. When no task has a negative duration (and the budget is an `int`), every
incomplete task not selected, that is, one that occurs in the pool more often than in the
plan, is longer than the final time left; adding it to the plan would exceed the
budget. -/
theorem plan_maximal (tasks : List Task) (available : Int) (out : PlanOutcome)
    (hnn : ∀ t ∈ tasks, 0 ≤ t.duration_minutes) (hint : isInt available)
    (hout : GeneratesPlan tasks available out) :
    ∀ t timeLeft, out.timeLeft? = some timeLeft →
      out.plan.count t < (pool tasks).count t →
      timeLeft < t.duration_minutes ∧ available < durationSum out.plan + t.duration_minutes := by
  intro t tl htl hcount
  unfold GeneratesPlan at hout
  split at hout
  · subst hout
    cases htl
  · obtain ⟨sorted, hs, rfl⟩ := hout
    rw [planAfterSort_timeLeft] at htl
    rw [planAfterSort_plan] at hcount ⊢
    cases htl
    have hnn' : ∀ u ∈ sorted, 0 ≤ u.duration_minutes :=
      fun u hu => hnn u ((mem_pool tasks u).1 (hs.1.subset hu)).1
    rw [← hs.1.count_eq t] at hcount
    have h1 := greedySelect_skipped sorted available hnn' hint.2 t hcount
    have h2 := (greedySelect_nonneg sorted available hnn' hint.2).2
    exact ⟨h1, by omega⟩

/-- Claim C19 at the three sample tasks, the budget 100 and the skipped task A. -/
theorem plan_maximal_witness :
    (generateDailyPlan [taskA, taskB, taskC] 100).timeLeft? = some 55 ∧
      (generateDailyPlan [taskA, taskB, taskC] 100).plan.count taskA
        < (pool [taskA, taskB, taskC]).count taskA ∧
      (55 < taskA.duration_minutes ∧
        100 < durationSum (generateDailyPlan [taskA, taskB, taskC] 100).plan
          + taskA.duration_minutes) :=
  ⟨by decide, by decide,
    plan_maximal [taskA, taskB, taskC] 100 _ (by decide) (by decide)
      (generateDailyPlan_generates _ _) taskA 55 (by decide) (by decide)⟩

/-! ## The plan depends on the keys only (claims C16, C20) -/

theorem planKey_eq_iff (a b : Task) : planKey a = planKey b ↔ planTriple a = planTriple b := by
  unfold planKey planTriple
  constructor
  · intro h
    have h1 := congrArg (fun k => (ofLex k).1) h
    have h2 := congrArg (fun k => (ofLex (ofLex k).2).1) h
    have h3 := congrArg (fun k => (ofLex (ofLex k).2).2) h
    simp only [ofLex_toLex] at h1 h2 h3
    rw [h1, String.ext h2, h3]
  · intro h
    simp only [Prod.mk.injEq] at h
    rw [h.1, h.2.1, h.2.2]

/-- Two candidate orders of the same candidates show the same sequence of keys. -/
theorem sorted_keys_unique {l₁ l₂ : List Task} (hp : l₁.Perm l₂)
    (h₁ : l₁.Pairwise (fun a b => planLess b a = false))
    (h₂ : l₂.Pairwise (fun a b => planLess b a = false)) :
    l₁.map planTriple = l₂.map planTriple := by
  have s₁ : (l₁.map planKey).Sorted (· ≤ ·) := by
    rw [List.Sorted, List.pairwise_map]
    exact h₁.imp (fun {a b} h => (planLess_eq_false_iff b a).1 h)
  have s₂ : (l₂.map planKey).Sorted (· ≤ ·) := by
    rw [List.Sorted, List.pairwise_map]
    exact h₂.imp (fun {a b} h => (planLess_eq_false_iff b a).1 h)
  have hk : l₁.map planKey = l₂.map planKey := List.eq_of_perm_of_sorted (hp.map planKey) s₁ s₂
  clear s₁ s₂ h₁ h₂ hp
  induction l₁ generalizing l₂ with
  | nil =>
    cases l₂ with
    | nil => rfl
    | cons _ _ => simp at hk
  | cons a l₁ ih =>
    cases l₂ with
    | nil => simp at hk
    | cons b l₂ =>
      simp only [List.map_cons, List.cons.injEq] at hk ⊢
      exact ⟨(planKey_eq_iff a b).1 hk.1, ih hk.2⟩

/-- The greedy loop looks at the durations only: on two lists with the same keys it
selects at the same positions and leaves the same time. -/
theorem greedySelect_congr (l₁ : List Task) :
    ∀ (l₂ : List Task) (timeLeft : Int), l₁.map planTriple = l₂.map planTriple →
      (greedySelect l₁ timeLeft).1.map planTriple = (greedySelect l₂ timeLeft).1.map planTriple ∧
        (greedySelect l₁ timeLeft).2 = (greedySelect l₂ timeLeft).2 := by
  induction l₁ with
  | nil =>
    intro l₂ tl h
    cases l₂ with
    | nil => exact ⟨rfl, rfl⟩
    | cons _ _ => simp at h
  | cons a l₁ ih =>
    intro l₂ tl h
    cases l₂ with
    | nil => simp at h
    | cons b l₂ =>
      simp only [List.map_cons, List.cons.injEq] at h
      have hd : a.duration_minutes = b.duration_minutes := by
        have := congrArg (fun k => k.2.2) h.1
        simpa [planTriple] using this
      unfold greedySelect
      rw [hd]
      split
      · obtain ⟨h1, h2⟩ := ih l₂ (wrapInt (tl - b.duration_minutes)) h.2
        simp only [List.map_cons, h.1, h1, h2, and_self]
      · exact ih l₂ tl h.2

theorem planTotal_congr (p₁ p₂ : List Task) (h : p₁.map planTriple = p₂.map planTriple) :
    planTotal p₁ = planTotal p₂ := by
  unfold planTotal
  generalize (0 : Int) = acc
  induction p₁ generalizing p₂ acc with
  | nil =>
    cases p₂ with
    | nil => rfl
    | cons _ _ => simp at h
  | cons a p₁ ih =>
    cases p₂ with
    | nil => simp at h
    | cons b p₂ =>
      simp only [List.map_cons, List.cons.injEq] at h
      have hd : a.duration_minutes = b.duration_minutes := by
        have := congrArg (fun k => k.2.2) h.1
        simpa [planTriple] using this
      simp only [List.foldl_cons, hd]
      exact ih p₂ h.2 _

theorem durationSum_congr (p₁ p₂ : List Task) (h : p₁.map planTriple = p₂.map planTriple) :
    durationSum p₁ = durationSum p₂ := by
  have e : ∀ p : List Task, p.map (fun t => t.duration_minutes)
      = (p.map planTriple).map (fun k => k.2.2) := by
    intro p
    rw [List.map_map]
    rfl
  unfold durationSum
  rw [e p₁, e p₂, h]

theorem planAfterSort_congr (l₁ l₂ : List Task) (available : Int)
    (h : l₁.map planTriple = l₂.map planTriple) :
    (planAfterSort l₁ available).plan.map planTriple
        = (planAfterSort l₂ available).plan.map planTriple ∧
      (planAfterSort l₁ available).total? = (planAfterSort l₂ available).total? ∧
      (planAfterSort l₁ available).timeLeft? = (planAfterSort l₂ available).timeLeft? := by
  obtain ⟨h1, h2⟩ := greedySelect_congr l₁ l₂ available h
  refine ⟨by rw [planAfterSort_plan, planAfterSort_plan]; exact h1, ?_,
    by rw [planAfterSort_timeLeft, planAfterSort_timeLeft, h2]⟩
  have hlen : (greedySelect l₁ available).1.length = (greedySelect l₂ available).1.length := by
    have := congrArg List.length h1
    simpa using this
  unfold planAfterSort
  simp only
  cases hg₁ : (greedySelect l₁ available).1 with
  | nil =>
    rw [hg₁] at hlen
    have hg₂ : (greedySelect l₂ available).1 = [] := List.length_eq_zero.1 hlen.symm
    simp [hg₂, PlanOutcome.total?]
  | cons a p₁ =>
    cases hg₂ : (greedySelect l₂ available).1 with
    | nil => rw [hg₁, hg₂] at hlen; simp at hlen
    | cons b p₂ =>
      rw [hg₁, hg₂] at h1
      simp [PlanOutcome.total?, planTotal_congr _ _ h1]

/-- Claim C20. For two stores that are rearrangements of one another, the same budget,
and any two outputs `std::sort` may produce, the two plans have the same length, the same
sequence of (priority, due date, duration) triples, the same sum of durations, the same
printed total and the same time left, and the "no incomplete tasks" outcome occurs for
both or for neither. -/
theorem plan_order_independent (tasks₁ tasks₂ : List Task) (available : Int)
    (out₁ out₂ : PlanOutcome) (hperm : tasks₁.Perm tasks₂)
    (h₁ : GeneratesPlan tasks₁ available out₁) (h₂ : GeneratesPlan tasks₂ available out₂) :
    out₁.plan.length = out₂.plan.length ∧
      out₁.plan.map planTriple = out₂.plan.map planTriple ∧
      durationSum out₁.plan = durationSum out₂.plan ∧
      out₁.total? = out₂.total? ∧
      out₁.timeLeft? = out₂.timeLeft? ∧
      (out₁ = PlanOutcome.noIncompleteTasks ↔ out₂ = PlanOutcome.noIncompleteTasks) := by
  have hpool := pool_perm hperm
  have key : out₁.plan.map planTriple = out₂.plan.map planTriple ∧
      out₁.total? = out₂.total? ∧ out₁.timeLeft? = out₂.timeLeft? ∧
      (out₁ = PlanOutcome.noIncompleteTasks ↔ out₂ = PlanOutcome.noIncompleteTasks) := by
    unfold GeneratesPlan at h₁ h₂
    by_cases he : (pool tasks₁).isEmpty = true
    · have he₂ : (pool tasks₂).isEmpty = true := by
        rw [List.isEmpty_iff] at he ⊢
        rw [he] at hpool
        exact List.perm_nil.1 hpool.symm
      rw [if_pos he] at h₁
      rw [if_pos he₂] at h₂
      subst h₁ h₂
      exact ⟨rfl, rfl, rfl, Iff.rfl⟩
    · have he₂ : ¬ (pool tasks₂).isEmpty = true := by
        intro h
        apply he
        rw [List.isEmpty_iff] at h ⊢
        rw [h] at hpool
        exact List.perm_nil.1 hpool
      rw [if_neg he] at h₁
      rw [if_neg he₂] at h₂
      obtain ⟨s₁, hs₁, rfl⟩ := h₁
      obtain ⟨s₂, hs₂, rfl⟩ := h₂
      have hk := sorted_keys_unique ((hs₁.1.trans hpool).trans hs₂.1.symm) hs₁.2 hs₂.2
      obtain ⟨c1, c2, c3⟩ := planAfterSort_congr s₁ s₂ available hk
      refine ⟨c1, c2, c3, ?_⟩
      constructor
      · intro h; exact absurd h (planAfterSort_ne_noIncompleteTasks _ _)
      · intro h; exact absurd h (planAfterSort_ne_noIncompleteTasks _ _)
  refine ⟨?_, key.1, durationSum_congr _ _ key.1, key.2⟩
  have := congrArg List.length key.1
  simpa using this

/-- Claim C20 at the three sample tasks stored in two orders. -/
theorem plan_order_independent_witness :
    (generateDailyPlan [taskA, taskB, taskC] 100).plan.length
        = (generateDailyPlan [taskC, taskB, taskA] 100).plan.length ∧
      (generateDailyPlan [taskA, taskB, taskC] 100).plan.map planTriple
        = (generateDailyPlan [taskC, taskB, taskA] 100).plan.map planTriple ∧
      durationSum (generateDailyPlan [taskA, taskB, taskC] 100).plan
        = durationSum (generateDailyPlan [taskC, taskB, taskA] 100).plan ∧
      (generateDailyPlan [taskA, taskB, taskC] 100).total?
        = (generateDailyPlan [taskC, taskB, taskA] 100).total? ∧
      (generateDailyPlan [taskA, taskB, taskC] 100).timeLeft?
        = (generateDailyPlan [taskC, taskB, taskA] 100).timeLeft? ∧
      (generateDailyPlan [taskA, taskB, taskC] 100 = PlanOutcome.noIncompleteTasks ↔
        generateDailyPlan [taskC, taskB, taskA] 100 = PlanOutcome.noIncompleteTasks) :=
  plan_order_independent [taskA, taskB, taskC] [taskC, taskB, taskA] 100 _ _ (by decide)
    (generateDailyPlan_generates _ _) (generateDailyPlan_generates _ _)

/-- When no two candidates tie, every sort gives the one outcome. -/
theorem generatesPlan_unique (tasks : List Task) (available : Int) (out : PlanOutcome)
    (hstrict : (stdSort planLess (pool tasks)).Pairwise (fun a b => planLess a b = true))
    (hout : GeneratesPlan tasks available out) : out = generateDailyPlan tasks available := by
  unfold GeneratesPlan at hout
  unfold generateDailyPlan
  split at hout
  · rename_i he
    rw [if_pos he]; exact hout
  · rename_i he
    rw [if_neg he]
    obtain ⟨sorted, hs, rfl⟩ := hout
    rw [sorted_unique_of_strict (hs.1.trans (stdSort_perm planLess _).symm) hs.2 hstrict]

/-- Claim C16. The greedy plan is not optimal. For the two incomplete tasks
`minutesGapTasks` and the budget 100 another subset of the pool fits the budget and has
more minutes than the plan; for the three incomplete tasks `countGapTasks` and the budget
100 another subset fits the budget and has more tasks than the plan. -/
theorem greedy_not_optimal :
    (∃ (tasks : List Task) (available : Int),
        (∀ t ∈ tasks, t.completed = false ∧ 0 ≤ t.duration_minutes) ∧ 0 ≤ available ∧
        ∀ out, GeneratesPlan tasks available out →
          ∃ other : List Task, other.Sublist (pool tasks) ∧ durationSum other ≤ available ∧
            durationSum out.plan < durationSum other ∧
            ∀ total, out.total? = some total → total < durationSum other) ∧
      (∃ (tasks : List Task) (available : Int),
        (∀ t ∈ tasks, t.completed = false ∧ 0 ≤ t.duration_minutes) ∧ 0 ≤ available ∧
        ∀ out, GeneratesPlan tasks available out →
          ∃ other : List Task, other.Sublist (pool tasks) ∧ durationSum other ≤ available ∧
            out.plan.length < other.length) := by
  constructor
  · refine ⟨minutesGapTasks, 100, by decide, by decide, ?_⟩
    intro out hout
    rw [generatesPlan_unique minutesGapTasks 100 out (by decide) hout]
    exact ⟨minutesGapTasks.drop 1, by decide, by decide, by decide, by decide⟩
  · refine ⟨countGapTasks, 100, by decide, by decide, ?_⟩
    intro out hout
    rw [generatesPlan_unique countGapTasks 100 out (by decide) hout]
    exact ⟨countGapTasks.drop 1, by decide, by decide, by decide⟩

/-! ## Records with the delimiter in a text field (claim C14) -/

theorem readUntil_fst_no_delim (delim : Char) (l : List Char) :
    delim ∉ (readUntil delim l).1 := by
  induction l with
  | nil => simp [readUntil]
  | cons c cs ih =>
    unfold readUntil
    split
    · simp
    · rename_i hc
      simp only [List.mem_cons, not_or]
      exact ⟨fun e => hc e.symm, ih⟩

/-- What `getline` stores never holds the delimiter, when the string held none before. -/
theorem getline_no_delim (s : IStream) (str : List Char) (delim : Char) (h : delim ∉ str) :
    delim ∉ (getline s str delim).1 := by
  unfold getline
  split
  · have := readUntil_fst_no_delim delim s.rest
    cases hr : readUntil delim s.rest with
    | mk field rest =>
      rw [hr] at this
      cases rest <;> exact this
  · exact h

/-- No line parses to a task with `|` in its title, subject or due date. -/
theorem deserialize_no_bar (line : String) (t : Task)
    (h : Task.deserialize line = Except.ok t) : ¬ t.textHas '|' := by
  unfold Task.deserialize at h
  simp only at h
  split at h
  · cases h
  · split at h
    · cases h
    · split at h
      · cases h
      · simp only [Except.ok.injEq] at h
        subst h
        have hnil : '|' ∉ ([] : List Char) := by simp
        unfold Task.textHas
        simp only [not_or]
        exact ⟨getline_no_delim _ _ _ hnil, getline_no_delim _ _ _ hnil,
          getline_no_delim _ _ _ hnil⟩

/-- Claim C14. When the title, the subject or the due date of a task holds `|`,
`Task::deserialize(t.serialize())` throws or returns a task different from `t`. For a
task whose `int` fields are `int` values, it returns `t` exactly when none of the three
text fields holds `|`. -/
theorem deserialize_serialize_iff (t : Task) :
    (t.textHas '|' →
        (∃ e, Task.deserialize t.serialize = Except.error e) ∨
          (∃ t', Task.deserialize t.serialize = Except.ok t' ∧ t' ≠ t)) ∧
      (t.intsInRange → (Task.deserialize t.serialize = Except.ok t ↔ ¬ t.textHas '|')) := by
  constructor
  · intro hbar
    cases hd : Task.deserialize t.serialize with
    | error e => exact Or.inl ⟨e, rfl⟩
    | ok t' =>
      refine Or.inr ⟨t', rfl, ?_⟩
      intro e
      subst e
      exact deserialize_no_bar _ _ hd hbar
  · intro hr
    exact ⟨fun h => deserialize_no_bar _ _ h, fun h => deserialize_serialize t hr h⟩

/-! ## Deleting a task that is there (claim C17) -/

theorem removeTask_success (s : Store) (id : Int) (h : ∃ t ∈ s.tasks, t.id = id) :
    removeTask s id
      = (saveTasks { s with tasks := s.tasks.filter (fun t => !decide (t.id = id)) },
          Message.taskDeleted) := by
  have hlen : ¬ (s.tasks.filter (fun t => !decide (t.id = id))).length = s.tasks.length := by
    rw [List.filter_length_eq_length]
    obtain ⟨t, ht, hid⟩ := h
    intro hall
    have := hall t ht
    simp [hid] at this
  unfold removeTask
  simp only
  rw [if_neg hlen]

/-- Claim C17 fails as stated in its last part: in a store whose counter is `INT_MAX`
and above every id, the task with the id `INT_MIN` is removed; counters being 32-bit, the
second add performed afterwards receives the removed id. -/
theorem removeTask_reuse_counterexample :
    (∃ t ∈ minIdStore.tasks, t.id = -2147483648) ∧
      (∀ t ∈ minIdStore.tasks, t.id < minIdStore.nextId) ∧
      (removeTask minIdStore (-2147483648)).1.tasks = [] ∧
      addedIds (run (removeTask minIdStore (-2147483648)).1
          [Op.add "a" "s" 30 1 "", Op.add "b" "s" 30 1 ""]).2
        = [2147483647, -2147483648] := by
  decide

/-- Claim C17, amended. When a task carries the id, `removeTask` reports success, the
task list becomes the old one without the tasks carrying the id (the others unchanged, in
their order) and `nextId` stays. If `nextId` was above every id of the store, the add
performed next receives `nextId`, which is not the removed id, and no add of a later run
receives the removed id as long as `nextId` plus the number of ids the run takes is at
most `INT_MAX + 1`. -/
theorem removeTask_present (s : Store) (id : Int) (hpresent : ∃ t ∈ s.tasks, t.id = id) :
    (removeTask s id).2 = Message.taskDeleted ∧
      (removeTask s id).1.tasks = s.tasks.filter (fun t => !decide (t.id = id)) ∧
      (removeTask s id).1.nextId = s.nextId ∧
      ((∀ t ∈ s.tasks, t.id < s.nextId) →
        ∀ (title subject : String) (duration priority : Int) (due : String),
          (addTask (removeTask s id).1 title subject duration priority due).2
              = Message.added s.nextId ∧ s.nextId ≠ id) ∧
      ((∀ t ∈ s.tasks, t.id < s.nextId) → isInt s.nextId →
        ∀ ops : List Op, s.nextId + idDemand ops ≤ INT_MAX + 1 →
          id ∉ addedIds (run (removeTask s id).1 ops).2) := by
  rw [removeTask_success s id hpresent]
  simp only [saveTasks_tasks, saveTasks_nextId]
  obtain ⟨t, ht, hid⟩ := hpresent
  refine ⟨trivial, trivial, trivial, ?_, ?_⟩
  · intro hlt title subject duration priority due
    have := hlt t ht
    refine ⟨?_, by omega⟩
    rw [(addTask_effect _ title subject duration priority due).1, saveTasks_nextId]
  · intro hlt hint ops hb hmem
    have hn : (saveTasks { s with tasks := s.tasks.filter (fun t => !decide (t.id = id)) }).nextId
        = s.nextId := by rw [saveTasks_nextId]
    have := (addedIds_increasing ops _ (by rw [hn]; exact hint) (by rw [hn]; exact hb)).2 id hmem
    rw [hn] at this
    have := hlt t ht
    omega

/-- Claim C17 (amended) at the sample store and the id 2. -/
theorem removeTask_present_witness :
    (removeTask sampleStore 2).2 = Message.taskDeleted ∧
      (removeTask sampleStore 2).1.tasks
        = sampleStore.tasks.filter (fun t => !decide (t.id = 2)) ∧
      (removeTask sampleStore 2).1.nextId = sampleStore.nextId ∧
      ((∀ t ∈ sampleStore.tasks, t.id < sampleStore.nextId) →
        ∀ (title subject : String) (duration priority : Int) (due : String),
          (addTask (removeTask sampleStore 2).1 title subject duration priority due).2
              = Message.added sampleStore.nextId ∧ sampleStore.nextId ≠ 2) ∧
      ((∀ t ∈ sampleStore.tasks, t.id < sampleStore.nextId) → isInt sampleStore.nextId →
        ∀ ops : List Op, sampleStore.nextId + idDemand ops ≤ INT_MAX + 1 →
          (2 : Int) ∉ addedIds (run (removeTask sampleStore 2).1 ops).2) :=
  removeTask_present sampleStore 2 (by decide)

/-! ## Editing (claim C18) -/

/-- The assignments of `editTask`, field by field. -/
theorem applyEdit_eq (e : EditInput) (t : Task) :
    applyEdit e t =
      match editedNumber e.duration t.duration_minutes with
      | Except.error err => Except.error err
      | Except.ok d =>
        match editedNumber e.priority t.priority with
        | Except.error err => Except.error err
        | Except.ok p =>
          Except.ok
            { id := t.id, title := editedText e.title t.title,
              subject := editedText e.subject t.subject, duration_minutes := d,
              priority := p, due_date := editedText e.due t.due_date,
              completed := t.completed } := by
  unfold applyEdit editedNumber editedText
  cases t with
  | mk id title subject dur pri due completed =>
    by_cases h1 : e.title.data.isEmpty = true <;> by_cases h2 : e.subject.data.isEmpty = true <;>
      by_cases h3 : e.due.data.isEmpty = true <;>
      simp only [h1, h2, h3, if_true, if_false, Bool.false_eq_true]

/-- The call `editTask` on a store split at the first task with the id. -/
theorem editTask_first (s : Store) (id : Int) (e : EditInput) (pre : List Task) (t : Task)
    (post : List Task) (hs : s.tasks = pre ++ t :: post) (ht : t.id = id)
    (hpre : ∀ u ∈ pre, u.id ≠ id) :
    editTask s id e =
      match applyEdit e t with
      | Except.error err => Except.error err
      | Except.ok t1 =>
        Except.ok (saveTasks { s with tasks := pre ++ t1 :: post }, Message.taskUpdated) := by
  have hfind := findTaskById_first pre t post id ht hpre
  unfold editTask
  rw [hs, hfind]
  simp only [get?_append_length, updateAt_length]

theorem editTask_absent (s : Store) (id : Int) (e : EditInput)
    (h : ∀ t ∈ s.tasks, t.id ≠ id) : editTask s id e = Except.ok (s, Message.taskNotFound) := by
  unfold editTask
  rw [(findTaskById_eq_none_iff s.tasks id).2 h]

/-- Claim C18 fails as stated: the id 1 is present and the answer for the due date is
not empty, but the answer "abc" for the duration makes `std::stoi` throw; no store
results and the due date is never assigned. -/
theorem editTask_counterexample :
    (∃ t ∈ sampleStore.tasks, t.id = 1) ∧
      badNumberEdit.due.data.isEmpty = false ∧
      editTask sampleStore 1 badNumberEdit = Except.error StoiError.invalid_argument := by
  decide

/-- Claim C18, amended. If no task carries the id, `editTask` returns the store as it was
and reports not-found. Otherwise let `t` be the first task with the id. When the answers
for duration and priority are each empty or a text `std::stoi` reads a number from,
`editTask` returns normally: `t` is replaced by the task with the same id and completed
flag in which title, subject and due date are the answers where these are not empty (the
old texts otherwise) and duration and priority are the numbers read (the old numbers
for empty answers); no other task, nor the order, nor `nextId` changes. When one of the
two answers is rejected by `std::stoi`, `editTask` throws. Whenever `editTask` returns,
the ids, the completed flags and the number of tasks are as before. -/
theorem editTask_effect (s : Store) (id : Int) (e : EditInput) :
    ((∀ t ∈ s.tasks, t.id ≠ id) → editTask s id e = Except.ok (s, Message.taskNotFound)) ∧
      (∀ pre t post d p, s.tasks = pre ++ t :: post → t.id = id → (∀ u ∈ pre, u.id ≠ id) →
        editedNumber e.duration t.duration_minutes = Except.ok d →
        editedNumber e.priority t.priority = Except.ok p →
        ∃ s', editTask s id e = Except.ok (s', Message.taskUpdated) ∧
          s'.tasks = pre ++
            { id := t.id, title := editedText e.title t.title,
              subject := editedText e.subject t.subject, duration_minutes := d,
              priority := p, due_date := editedText e.due t.due_date,
              completed := t.completed } :: post ∧
          s'.nextId = s.nextId) ∧
      (∀ pre t post err, s.tasks = pre ++ t :: post → t.id = id → (∀ u ∈ pre, u.id ≠ id) →
        (editedNumber e.duration t.duration_minutes = Except.error err ∨
          ((∃ d, editedNumber e.duration t.duration_minutes = Except.ok d) ∧
            editedNumber e.priority t.priority = Except.error err)) →
        editTask s id e = Except.error err) ∧
      (∀ r, editTask s id e = Except.ok r →
        r.1.tasks.map (fun t => t.id) = s.tasks.map (fun t => t.id) ∧
          r.1.tasks.map (fun t => t.completed) = s.tasks.map (fun t => t.completed) ∧
          r.1.tasks.length = s.tasks.length ∧ r.1.nextId = s.nextId) := by
  refine ⟨editTask_absent s id e, ?_, ?_, ?_⟩
  · intro pre t post d p hs ht hpre hd hp
    rw [editTask_first s id e pre t post hs ht hpre, applyEdit_eq, hd, hp]
    exact ⟨_, rfl, by rw [saveTasks_tasks], by rw [saveTasks_nextId]⟩
  · intro pre t post err hs ht hpre h
    rw [editTask_first s id e pre t post hs ht hpre, applyEdit_eq]
    rcases h with h | ⟨⟨d, hd⟩, hp⟩
    · rw [h]
    · rw [hd, hp]
  · intro r hr
    cases hf : findTaskById s.tasks id with
    | none =>
      rw [editTask_absent s id e ((findTaskById_eq_none_iff s.tasks id).1 hf)] at hr
      cases hr
      exact ⟨rfl, rfl, rfl, rfl⟩
    | some i =>
      obtain ⟨pre, t, post, hs, -, ht, hpre⟩ := findTaskById_some s.tasks id i hf
      rw [editTask_first s id e pre t post hs ht hpre, applyEdit_eq] at hr
      cases hD : editedNumber e.duration t.duration_minutes with
      | error err => rw [hD] at hr; cases hr
      | ok d =>
        rw [hD] at hr
        cases hP : editedNumber e.priority t.priority with
        | error err => rw [hP] at hr; cases hr
        | ok p =>
          rw [hP] at hr
          cases hr
          simp [saveTasks_tasks, saveTasks_nextId, hs]

/-- Claim C18 (amended) at the sample store: editing task 1 with a new duration and due
date. -/
theorem editTask_effect_witness :
    ∃ s', editTask sampleStore 1 sampleEdit = Except.ok (s', Message.taskUpdated) ∧
      s'.tasks = [] ++
        { id := taskA.id, title := editedText sampleEdit.title taskA.title,
          subject := editedText sampleEdit.subject taskA.subject, duration_minutes := 75,
          priority := 1, due_date := editedText sampleEdit.due taskA.due_date,
          completed := taskA.completed } :: [taskB, taskC] ∧
      s'.nextId = sampleStore.nextId :=
  (editTask_effect sampleStore 1 sampleEdit).2.1 [] taskA [taskB, taskC] 75 1 rfl rfl
    (by decide) (by decide) (by decide)

/-! ## The store predicate (claim C13) -/

/-- The store predicate depends on the ids, in order, and on the counter only. -/
theorem StoreInv_congr (s s' : Store)
    (hids : s'.tasks.map (fun t => t.id) = s.tasks.map (fun t => t.id))
    (hnext : s'.nextId = s.nextId) (h : StoreInv s) : StoreInv s' := by
  unfold StoreInv at *
  rw [hids, hnext]
  exact h

theorem StoreInv_addTask (s : Store) (title subject : String) (duration priority : Int)
    (due : String) (h : StoreInv s) (hint : isInt s.nextId) (hmax : s.nextId < INT_MAX) :
    StoreInv (addTask s title subject duration priority due).1 := by
  obtain ⟨-, h2, h3⟩ := addTask_effect s title subject duration priority due
  have hw : wrapInt (s.nextId + 1) = s.nextId + 1 := by
    apply wrapInt_of_isInt
    simp only [isInt, INT_MIN, INT_MAX] at *
    constructor <;> omega
  unfold StoreInv at *
  rw [h2, h3, hw]
  simp only [List.map_append, List.map_cons, List.map_nil]
  constructor
  · rw [List.nodup_append]
    refine ⟨h.1, List.nodup_singleton _, ?_⟩
    intro a ha hb
    rw [List.mem_singleton] at hb
    have := h.2 a ha
    omega
  · intro i hi
    rcases List.mem_append.1 hi with hi | hi
    · have := h.2 i hi
      omega
    · rw [List.mem_singleton] at hi
      omega

theorem StoreInv_removeTask (s : Store) (id : Int) (h : StoreInv s) :
    StoreInv (removeTask s id).1 := by
  unfold removeTask
  simp only
  split
  · exact h
  · unfold StoreInv at *
    rw [saveTasks_tasks, saveTasks_nextId]
    have hsub : ((s.tasks.filter (fun t => !decide (t.id = id))).map (fun t => t.id)).Sublist
        (s.tasks.map (fun t => t.id)) := (List.filter_sublist _).map _
    exact ⟨h.1.sublist hsub, fun i hi => h.2 i (hsub.subset hi)⟩

theorem updateAt_map_id (f : Task → Task) (hf : ∀ t, (f t).id = t.id) (l : List Task) :
    ∀ i, (updateAt f l i).map (fun t => t.id) = l.map (fun t => t.id) := by
  induction l with
  | nil => intro i; rfl
  | cons t rest ih =>
    intro i
    cases i with
    | zero => simp [updateAt, hf]
    | succ i => simp [updateAt, ih i]

theorem StoreInv_toggleComplete (s : Store) (id : Int) (h : StoreInv s) :
    StoreInv (toggleComplete s id).1 := by
  unfold toggleComplete
  split
  · exact h
  · apply StoreInv_congr s _ _ _ h
    · rw [saveTasks_tasks]
      exact updateAt_map_id (fun t => { t with completed := !t.completed }) (fun _ => rfl)
        s.tasks _
    · rw [saveTasks_nextId]

theorem StoreInv_importSampleData (s : Store) (hint : isInt s.nextId)
    (hmax : s.nextId + 4 ≤ INT_MAX) : StoreInv (importSampleData s).1 := by
  unfold StoreInv importSampleData
  simp only [saveTasks_tasks, saveTasks_nextId, List.map_cons, List.map_nil]
  have e1 : wrapInt (s.nextId + 1) = s.nextId + 1 := by
    simp only [isInt, INT_MIN, INT_MAX, wrapInt] at *
    omega
  have e2 : wrapInt (s.nextId + 1 + 1) = s.nextId + 2 := by
    simp only [isInt, INT_MIN, INT_MAX, wrapInt] at *
    omega
  have e3 : wrapInt (s.nextId + 2 + 1) = s.nextId + 3 := by
    simp only [isInt, INT_MIN, INT_MAX, wrapInt] at *
    omega
  have e4 : wrapInt (s.nextId + 3 + 1) = s.nextId + 4 := by
    simp only [isInt, INT_MIN, INT_MAX, wrapInt] at *
    omega
  rw [e1, e2, e3, e4]
  constructor
  · simp only [List.nodup_cons, List.mem_cons, List.mem_singleton, List.not_mem_nil,
      List.nodup_nil, not_or, not_false_eq_true, and_true]
    refine ⟨⟨?_, ?_, ?_⟩, ⟨?_, ?_⟩, ?_⟩ <;> omega
  · intro i hi
    simp only [List.mem_cons, List.mem_singleton, List.not_mem_nil, or_false] at hi
    rcases hi with rfl | rfl | rfl | rfl <;> omega

/-! ### The counter after `loadTasks` -/

theorem stoi_isInt (str : List Char) (v : Int) (h : stoi str = Except.ok v) : isInt v := by
  unfold stoi at h
  simp only at h
  split_ifs at h with h1 h2 h3 h4
  · cases h
    exact h3
  · cases h
    exact h4

theorem deserialize_id_isInt (line : String) (t : Task)
    (h : Task.deserialize line = Except.ok t) : isInt t.id := by
  unfold Task.deserialize at h
  simp only at h
  split at h
  · cases h
  · rename_i id hid
    split at h
    · cases h
    · split at h
      · cases h
      · simp only [Except.ok.injEq] at h
        subst h
        exact stoi_isInt _ _ hid

theorem maxIdOf_append (l₁ l₂ : List Task) (m : Int) :
    maxIdOf (l₁ ++ l₂) m = maxIdOf l₂ (maxIdOf l₁ m) := by
  simp [maxIdOf, List.foldl_append]

/-- The loop of `loadTasks` adds tasks with `int` ids at the end and keeps in `maxId`
the largest of its old value and their ids. -/
theorem loadLoop_result (fuel : Nat) :
    ∀ (input : IStream) (line : List Char) (acc : List Task) (maxId : Int)
      (r : List Task × Int),
      loadLoop fuel input line acc maxId = Except.ok r →
      ∃ new, r.1 = acc ++ new ∧ r.2 = maxIdOf new maxId ∧ ∀ t ∈ new, isInt t.id := by
  induction fuel with
  | zero =>
    intro input line acc maxId r h
    simp only [loadLoop, Except.ok.injEq] at h
    subst h
    exact ⟨[], by simp, rfl, by simp⟩
  | succ fuel ih =>
    intro input line acc maxId r h
    rw [loadLoop] at h
    split at h
    · simp only [Except.ok.injEq] at h
      subst h
      exact ⟨[], by simp, rfl, by simp⟩
    · split at h
      · exact ih _ _ _ _ _ h
      · split at h
        · cases h
        · rename_i t ht
          obtain ⟨new, h1, h2, h3⟩ := ih _ _ _ _ _ h
          refine ⟨t :: new, by rw [h1]; simp, ?_, ?_⟩
          · rw [h2]; rfl
          · intro u hu
            rcases List.mem_cons.1 hu with rfl | hu
            · exact deserialize_id_isInt _ _ ht
            · exact h3 u hu

theorem maxIdOf_ge (l : List Task) : ∀ m : Int, m ≤ maxIdOf l m ∧ ∀ t ∈ l, t.id ≤ maxIdOf l m := by
  induction l with
  | nil => intro m; simp [maxIdOf]
  | cons t rest ih =>
    intro m
    have e : maxIdOf (t :: rest) m = maxIdOf rest (if t.id > m then t.id else m) := rfl
    rw [e]
    by_cases hgt : t.id > m
    · rw [if_pos hgt]
      obtain ⟨h1, h2⟩ := ih t.id
      refine ⟨by omega, fun u hu => ?_⟩
      rcases List.mem_cons.1 hu with rfl | hu
      · exact h1
      · exact h2 u hu
    · rw [if_neg hgt]
      obtain ⟨h1, h2⟩ := ih m
      refine ⟨h1, fun u hu => ?_⟩
      rcases List.mem_cons.1 hu with rfl | hu
      · omega
      · exact h2 u hu

theorem maxIdOf_attained (l : List Task) :
    ∀ m : Int, maxIdOf l m = m ∨ ∃ t ∈ l, maxIdOf l m = t.id := by
  induction l with
  | nil => intro m; left; rfl
  | cons t rest ih =>
    intro m
    have e : maxIdOf (t :: rest) m = maxIdOf rest (if t.id > m then t.id else m) := rfl
    rw [e]
    rcases ih (if t.id > m then t.id else m) with h | ⟨u, hu, h⟩
    · rw [h]
      split
      · exact Or.inr ⟨t, List.mem_cons_self _ _, rfl⟩
      · exact Or.inl rfl
    · exact Or.inr ⟨u, List.mem_cons_of_mem _ hu, h⟩

/-- What `loadTasks` leaves in the counter when the file opens and parses. -/
theorem loadTasks_counter (s s' : Store) (text : List Char) (hdb : s.db = some text)
    (h : loadTasks s = Except.ok s') :
    s'.nextId = wrapInt (maxIdOf s'.tasks 0 + 1) ∧ ∀ t ∈ s'.tasks, isInt t.id := by
  unfold loadTasks at h
  rw [hdb] at h
  simp only at h
  split at h
  · cases h
  · rename_i r hr
    simp only [Except.ok.injEq] at h
    subst h
    obtain ⟨new, h1, h2, h3⟩ := loadLoop_result _ _ _ _ _ _ hr
    simp only [List.nil_append] at h1
    simp only
    rw [h1, h2]
    exact ⟨rfl, h3⟩

/-- Claim C13 fails as stated: the store with no task and the counter `INT_MAX`
satisfies the predicate, and after an add it does not (the new task has the id `INT_MAX`
and the counter is `INT_MIN`); and after loading a file whose record has the id `INT_MAX`
the counter is `INT_MIN`, below the loaded id. -/
theorem storeInv_counterexample :
    StoreInv fullCounterStore ∧ isInt fullCounterStore.nextId ∧
      ¬ StoreInv (addTask fullCounterStore "a" "s" 30 1 "").1 ∧
      (loadTasks maxIdFileStore).map (fun s => (s.tasks.map (fun t => t.id), s.nextId))
        = Except.ok ([2147483647], -2147483648) := by
  decide

/-- Claim C13, amended. The store predicate (ids pairwise distinct and below `nextId`) is
preserved by edit, remove and toggle on every store, and by add when `nextId` is an `int`
below `INT_MAX`; import-sample-data establishes it when `nextId + 4 <= INT_MAX`. After a
`loadTasks` that opens and parses the file, `nextId` is the 32-bit wrap of one more than
the largest of 0 and the loaded ids; when every loaded id is below `INT_MAX`, it is
above every loaded id, it is 1 when no loaded id is positive, and it is one more than
the largest loaded id when that one is positive. -/
theorem storeInv_preserved (s : Store) :
    (StoreInv s → isInt s.nextId → s.nextId < INT_MAX →
        ∀ (title subject : String) (duration priority : Int) (due : String),
          StoreInv (addTask s title subject duration priority due).1) ∧
      (StoreInv s → ∀ id e r, editTask s id e = Except.ok r → StoreInv r.1) ∧
      (StoreInv s → ∀ id, StoreInv (removeTask s id).1) ∧
      (StoreInv s → ∀ id, StoreInv (toggleComplete s id).1) ∧
      (isInt s.nextId → s.nextId + 4 ≤ INT_MAX → StoreInv (importSampleData s).1) ∧
      (∀ text s', s.db = some text → loadTasks s = Except.ok s' →
        s'.nextId = wrapInt (maxIdOf s'.tasks 0 + 1) ∧
          ((∀ t ∈ s'.tasks, t.id < INT_MAX) →
            (∀ t ∈ s'.tasks, t.id < s'.nextId) ∧
              ((∀ t ∈ s'.tasks, t.id ≤ 0) → s'.nextId = 1) ∧
              (∀ t ∈ s'.tasks, 0 < t.id → (∀ u ∈ s'.tasks, u.id ≤ t.id) →
                s'.nextId = t.id + 1))) := by
  refine ⟨?_, ?_, ?_, ?_, StoreInv_importSampleData s, ?_⟩
  · intro h hint hmax title subject duration priority due
    exact StoreInv_addTask s title subject duration priority due h hint hmax
  · intro h id e r hr
    cases hf : findTaskById s.tasks id with
    | none =>
      rw [editTask_absent s id e ((findTaskById_eq_none_iff s.tasks id).1 hf)] at hr
      cases hr
      exact h
    | some i =>
      obtain ⟨pre, t, post, hs, -, ht, hpre⟩ := findTaskById_some s.tasks id i hf
      rw [editTask_first s id e pre t post hs ht hpre, applyEdit_eq] at hr
      cases hD : editedNumber e.duration t.duration_minutes with
      | error err => rw [hD] at hr; cases hr
      | ok d =>
        rw [hD] at hr
        cases hP : editedNumber e.priority t.priority with
        | error err => rw [hP] at hr; cases hr
        | ok p =>
          rw [hP] at hr
          cases hr
          apply StoreInv_congr s _ _ _ h
          · simp [saveTasks_tasks, hs]
          · simp [saveTasks_nextId]
  · intro h id
    exact StoreInv_removeTask s id h
  · intro h id
    exact StoreInv_toggleComplete s id h
  · intro text s' hdb hload
    obtain ⟨h1, -⟩ := loadTasks_counter s s' text hdb hload
    refine ⟨h1, ?_⟩
    intro hlt
    obtain ⟨g1, g2⟩ := maxIdOf_ge s'.tasks 0
    have hm : maxIdOf s'.tasks 0 < INT_MAX := by
      rcases maxIdOf_attained s'.tasks 0 with h0 | ⟨u, hu, h0⟩
      · rw [h0]; decide
      · rw [h0]; exact hlt u hu
    have hw : s'.nextId = maxIdOf s'.tasks 0 + 1 := by
      rw [h1]
      apply wrapInt_of_isInt
      simp only [isInt, INT_MIN, INT_MAX] at *
      constructor <;> omega
    refine ⟨?_, ?_, ?_⟩
    · intro t ht
      have := g2 t ht
      omega
    · intro hnp
      rcases maxIdOf_attained s'.tasks 0 with h0 | ⟨u, hu, h0⟩
      · omega
      · have := hnp u hu
        omega
    · intro t ht hpos hmaxi
      have := g2 t ht
      rcases maxIdOf_attained s'.tasks 0 with h0 | ⟨u, hu, h0⟩
      · omega
      · have := hmaxi u hu
        omega

/-- Claim C13 (amended) at the sample store: an add and a sample import. -/
theorem storeInv_preserved_witness :
    StoreInv sampleStore ∧ StoreInv (addTask sampleStore "a" "s" 30 1 "").1 ∧
      StoreInv (importSampleData sampleStore).1 :=
  ⟨by decide,
    (storeInv_preserved sampleStore).1 (by decide) (by decide) (by decide) "a" "s" 30 1 "",
    (storeInv_preserved sampleStore).2.2.2.2.1 (by decide) (by decide)⟩

/-! ## Every store the program can hold is well formed -/

theorem readUntil_fst_subset (delim : Char) (l : List Char) :
    ∀ c ∈ (readUntil delim l).1, c ∈ l := by
  induction l with
  | nil => intro c hc; simp [readUntil] at hc
  | cons x xs ih =>
    intro c hc
    unfold readUntil at hc
    split at hc
    · simp at hc
    · rcases List.mem_cons.1 hc with rfl | hc
      · exact List.mem_cons_self _ _
      · exact List.mem_cons_of_mem _ (ih c hc)

theorem readUntil_snd_subset (delim : Char) (l : List Char) :
    ∀ r, (readUntil delim l).2 = some r → ∀ c ∈ r, c ∈ l := by
  induction l with
  | nil => intro r h; simp [readUntil] at h
  | cons x xs ih =>
    intro r h c hc
    unfold readUntil at h
    split at h
    · simp only [Option.some.injEq] at h
      subst h
      exact List.mem_cons_of_mem _ hc
    · exact List.mem_cons_of_mem _ (ih r h c hc)

/-- What `getline` stores comes from the stream, or was in the string before. -/
theorem getline_fst_mem (s : IStream) (str : List Char) (delim c : Char)
    (hc : c ∈ (getline s str delim).1) : c ∈ s.rest ∨ c ∈ str := by
  unfold getline at hc
  split at hc
  · left
    have h := readUntil_fst_subset delim s.rest c
    cases hr : readUntil delim s.rest with
    | mk field rest =>
      rw [hr] at hc h
      cases rest <;> exact h hc
  · exact Or.inr hc

/-- What `getline` leaves in the stream was in the stream. -/
theorem getline_rest_subset (s : IStream) (str : List Char) (delim c : Char)
    (hc : c ∈ (getline s str delim).2.rest) : c ∈ s.rest := by
  unfold getline at hc
  split at hc
  · have h := readUntil_snd_subset delim s.rest
    cases hr : readUntil delim s.rest with
    | mk field rest =>
      rw [hr] at hc h
      cases rest with
      | none => simp at hc
      | some r => exact h r rfl c hc
  · exact hc

theorem getline_rest_sub (base : List Char) (s : IStream) (str : List Char) (delim : Char)
    (h : ∀ c ∈ s.rest, c ∈ base) : ∀ c ∈ (getline s str delim).2.rest, c ∈ base :=
  fun c hc => h c (getline_rest_subset s str delim c hc)

theorem getline_fresh_sub (base : List Char) (s : IStream) (delim : Char)
    (h : ∀ c ∈ s.rest, c ∈ base) : ∀ c ∈ (getline s [] delim).1, c ∈ base := by
  intro c hc
  rcases getline_fst_mem s [] delim c hc with h' | h'
  · exact h c h'
  · exact absurd h' (List.not_mem_nil c)

/-- The text fields of a parsed record hold characters of the line only, and its numbers
are `int` values. -/
theorem deserialize_stored (line : String) (t : Task)
    (h : Task.deserialize line = Except.ok t) :
    t.intsInRange ∧ ∀ c, t.textHas c → c ∈ line.data := by
  unfold Task.deserialize at h
  simp only at h
  split at h
  · cases h
  · rename_i id hid
    split at h
    · cases h
    · rename_i dur hdur
      split at h
      · cases h
      · rename_i pri hpri
        simp only [Except.ok.injEq] at h
        subst h
        refine ⟨⟨stoi_isInt _ _ hid, stoi_isInt _ _ hdur, stoi_isInt _ _ hpri⟩, ?_⟩
        have s0 : ∀ c ∈ (IStream.open line.data).rest, c ∈ line.data := fun c hc => hc
        intro c hc
        rcases hc with hc | hc | hc
        · exact getline_fresh_sub _ _ _ (getline_rest_sub _ _ _ _ s0) c hc
        · exact getline_fresh_sub _ _ _
            (getline_rest_sub _ _ _ _ (getline_rest_sub _ _ _ _ s0)) c hc
        · exact getline_fresh_sub _ _ _
            (getline_rest_sub _ _ _ _ (getline_rest_sub _ _ _ _ (getline_rest_sub _ _ _ _
              (getline_rest_sub _ _ _ _ (getline_rest_sub _ _ _ _ s0))))) c hc

/-- Every task the loop of `loadTasks` adds is as `Task.isStored` says: its line holds
no line feed. -/
theorem loadLoop_stored (fuel : Nat) :
    ∀ (input : IStream) (line : List Char) (acc : List Task) (maxId : Int)
      (r : List Task × Int),
      '\n' ∉ line → (∀ t ∈ acc, t.isStored) →
      loadLoop fuel input line acc maxId = Except.ok r → ∀ t ∈ r.1, t.isStored := by
  induction fuel with
  | zero =>
    intro input line acc maxId r _ hacc h
    simp only [loadLoop, Except.ok.injEq] at h
    subst h
    exact hacc
  | succ fuel ih =>
    intro input line acc maxId r hline hacc h
    have hl := getline_no_delim input line '\n' hline
    rw [loadLoop] at h
    split at h
    · simp only [Except.ok.injEq] at h
      subst h
      exact hacc
    · split at h
      · exact ih _ _ _ _ _ hl hacc h
      · split at h
        · cases h
        · rename_i t ht
          refine ih _ _ _ _ _ hl ?_ h
          intro u hu
          rcases List.mem_append.1 hu with hu | hu
          · exact hacc u hu
          · rw [List.mem_singleton] at hu
            subst hu
            obtain ⟨h1, h2⟩ := deserialize_stored _ _ ht
            exact ⟨h1, fun hnl => hl (h2 '\n' hnl)⟩

/-- Whatever the file holds, a `loadTasks` that returns leaves a well-formed store. -/
theorem loadTasks_wellFormed (s s' : Store) (hs : isInt s.nextId)
    (h : loadTasks s = Except.ok s') : s'.wellFormed := by
  unfold loadTasks at h
  split at h
  · simp only [Except.ok.injEq] at h
    subst h
    exact ⟨hs, by simp⟩
  · split at h
    · cases h
    · rename_i r hr
      simp only [Except.ok.injEq] at h
      subst h
      exact ⟨isInt_wrapInt _, loadLoop_stored _ _ _ _ _ _ (by simp) (by simp) hr⟩


theorem mem_updateAt (f : Task → Task) (l : List Task) :
    ∀ (i : Nat) (u : Task), u ∈ updateAt f l i → u ∈ l ∨ ∃ t ∈ l, u = f t := by
  induction l with
  | nil => intro i u hu; simp [updateAt] at hu
  | cons x xs ih =>
    intro i u hu
    cases i with
    | zero =>
      simp only [updateAt, List.mem_cons] at hu
      rcases hu with rfl | hu
      · exact Or.inr ⟨x, List.mem_cons_self _ _, rfl⟩
      · exact Or.inl (List.mem_cons_of_mem _ hu)
    | succ i =>
      simp only [updateAt, List.mem_cons] at hu
      rcases hu with rfl | hu
      · exact Or.inl (List.mem_cons_self _ _)
      · rcases ih i u hu with h | ⟨t, ht, h⟩
        · exact Or.inl (List.mem_cons_of_mem _ h)
        · exact Or.inr ⟨t, List.mem_cons_of_mem _ ht, h⟩

theorem editedText_line (input old : String) (hi : '\n' ∉ input.data) (ho : '\n' ∉ old.data) :
    '\n' ∉ (editedText input old).data := by
  unfold editedText
  split
  · exact ho
  · exact hi

theorem editedNumber_isInt (input : String) (old v : Int) (ho : isInt old)
    (h : editedNumber input old = Except.ok v) : isInt v := by
  unfold editedNumber at h
  split at h
  · cases h; exact ho
  · exact stoi_isInt _ _ h

theorem wellFormed_addTask (s : Store) (title subject : String) (duration priority : Int)
    (due : String) (h : s.wellFormed)
    (hin : (Op.add title subject duration priority due).inputsOk) :
    (addTask s title subject duration priority due).1.wellFormed := by
  obtain ⟨h1, h2, h3, h4, h5⟩ := hin
  obtain ⟨-, e2, e3⟩ := addTask_effect s title subject duration priority due
  unfold Store.wellFormed
  rw [e2, e3]
  refine ⟨isInt_wrapInt _, ?_⟩
  intro t ht
  rcases List.mem_append.1 ht with ht | ht
  · exact h.2 t ht
  · rw [List.mem_singleton] at ht
    subst ht
    refine ⟨⟨h.1, h4, h5⟩, ?_⟩
    rintro (hc | hc | hc)
    · exact h1 hc
    · exact h2 hc
    · exact h3 hc

theorem wellFormed_editTask (s : Store) (id : Int) (e : EditInput) (r : Store × Message)
    (h : s.wellFormed) (hin : (Op.edit id e).inputsOk) (hr : editTask s id e = Except.ok r) :
    r.1.wellFormed := by
  obtain ⟨i1, i2, i3⟩ := hin
  cases hf : findTaskById s.tasks id with
  | none =>
    rw [editTask_absent s id e ((findTaskById_eq_none_iff s.tasks id).1 hf)] at hr
    cases hr
    exact h
  | some i =>
    obtain ⟨pre, t, post, hs, -, ht, hpre⟩ := findTaskById_some s.tasks id i hf
    have htm : t ∈ s.tasks := by rw [hs]; simp
    obtain ⟨⟨t1, t2, t3⟩, tl⟩ := h.2 t htm
    rw [editTask_first s id e pre t post hs ht hpre, applyEdit_eq] at hr
    cases hD : editedNumber e.duration t.duration_minutes with
    | error err => rw [hD] at hr; cases hr
    | ok d =>
      rw [hD] at hr
      cases hP : editedNumber e.priority t.priority with
      | error err => rw [hP] at hr; cases hr
      | ok p =>
        rw [hP] at hr
        cases hr
        unfold Store.wellFormed
        rw [saveTasks_tasks, saveTasks_nextId]
        refine ⟨h.1, ?_⟩
        intro u hu
        simp only [List.mem_append, List.mem_cons] at hu
        rcases hu with hu | rfl | hu
        · exact h.2 u (by rw [hs]; simp [hu])
        · refine ⟨⟨t1, editedNumber_isInt _ _ _ t2 hD, editedNumber_isInt _ _ _ t3 hP⟩, ?_⟩
          rintro (hc | hc | hc)
          · exact editedText_line _ _ i1 (fun x => tl (Or.inl x)) hc
          · exact editedText_line _ _ i2 (fun x => tl (Or.inr (Or.inl x))) hc
          · exact editedText_line _ _ i3 (fun x => tl (Or.inr (Or.inr x))) hc
        · exact h.2 u (by rw [hs]; simp [hu])

theorem wellFormed_removeTask (s : Store) (id : Int) (h : s.wellFormed) :
    (removeTask s id).1.wellFormed := by
  unfold removeTask
  simp only
  split
  · exact h
  · unfold Store.wellFormed
    rw [saveTasks_tasks, saveTasks_nextId]
    exact ⟨h.1, fun t ht => h.2 t (List.mem_of_mem_filter ht)⟩

theorem wellFormed_toggleComplete (s : Store) (id : Int) (h : s.wellFormed) :
    (toggleComplete s id).1.wellFormed := by
  unfold toggleComplete
  split
  · exact h
  · unfold Store.wellFormed
    simp only [saveTasks_tasks, saveTasks_nextId]
    refine ⟨h.1, ?_⟩
    intro u hu
    rcases mem_updateAt _ _ _ u hu with hu | ⟨t, ht, rfl⟩
    · exact h.2 u hu
    · exact h.2 t ht

theorem wellFormed_importSampleData (s : Store) (h : isInt s.nextId) :
    (importSampleData s).1.wellFormed := by
  unfold Store.wellFormed importSampleData
  simp only [saveTasks_tasks, saveTasks_nextId]
  refine ⟨isInt_wrapInt _, ?_⟩
  intro t ht
  simp only [List.mem_cons, List.mem_singleton, List.not_mem_nil, or_false] at ht
  rcases ht with rfl | rfl | rfl | rfl
  · exact ⟨⟨h, by dsimp only; decide, by dsimp only; decide⟩,
      by dsimp only [Task.textHas]; decide⟩
  · exact ⟨⟨isInt_wrapInt _, by dsimp only; decide, by dsimp only; decide⟩,
      by dsimp only [Task.textHas]; decide⟩
  · exact ⟨⟨isInt_wrapInt _, by dsimp only; decide, by dsimp only; decide⟩,
      by dsimp only [Task.textHas]; decide⟩
  · exact ⟨⟨isInt_wrapInt _, by dsimp only; decide, by dsimp only; decide⟩,
      by dsimp only [Task.textHas]; decide⟩

/-- Every menu choice keeps the store well formed, given what the terminal can supply. -/
theorem wellFormed_step (s : Store) (op : Op) (r : Store × Message) (h : s.wellFormed)
    (hin : op.inputsOk) (hr : step s op = Except.ok r) : r.1.wellFormed := by
  cases op with
  | list showCompleted =>
    simp only [step, Except.ok.injEq] at hr
    subst hr; exact h
  | add title subject duration priority due =>
    simp only [step, Except.ok.injEq] at hr
    subst hr
    exact wellFormed_addTask s title subject duration priority due h hin
  | edit id e =>
    simp only [step] at hr
    exact wellFormed_editTask s id e r h hin hr
  | remove id =>
    simp only [step, Except.ok.injEq] at hr
    subst hr; exact wellFormed_removeTask s id h
  | toggle id =>
    simp only [step, Except.ok.injEq] at hr
    subst hr; exact wellFormed_toggleComplete s id h
  | plan available =>
    simp only [step, Except.ok.injEq] at hr
    subst hr; exact h
  | importSample =>
    simp only [step, Except.ok.injEq] at hr
    subst hr; exact wellFormed_importSampleData s h.1
  | save =>
    simp only [step, Except.ok.injEq] at hr
    subst hr
    exact ⟨by rw [saveTasks_nextId]; exact h.1, by rw [saveTasks_tasks]; exact h.2⟩

/-- Every store the program reaches is well formed: it starts with `loadTasks` (which
leaves a well-formed store, see `loadTasks_wellFormed`) and goes on with menu choices. -/
theorem wellFormed_run (ops : List Op) :
    ∀ s : Store, s.wellFormed → (∀ op ∈ ops, op.inputsOk) → (run s ops).1.wellFormed := by
  induction ops with
  | nil => intro s h _; exact h
  | cons op rest ih =>
    intro s h hin
    unfold run
    split
    · exact h
    · rename_i r hr
      exact ih r.1 (wellFormed_step s op r h (hin op (List.mem_cons_self _ _)) hr)
        (fun o ho => hin o (List.mem_cons_of_mem _ ho))


end StudyPlanner
